import Mathlib

/-!
Pullet16 interpreter: a shallow embedding.

Embedding of `src/pullet16interpreter.cc` and `src/hex.cc`.

* C++ `string`s holding bit text are lists of booleans, most significant bit
  first (`'0'` is `false`, `'1'` is `true`); `"0"` is `[false]`, `"010"` is
  `[false, true, false]`.
* C++ `int` is an `Int` kept inside the 32-bit range: the sum in `DoADD` and
  the difference in `DoSUB`, the two places where an `int` result can leave
  that range, wrap around modulo `2 ^ 32` as two's-complement arithmetic does
  (`wrapInt32`). The program counter only ever holds non-negative values and
  is a `Nat`.
* Text lines are lists of characters; the data lines of the spec are ASCII
  (`[+-][0-9A-F]{4}`), where characters and the bytes that
  `std::string::length` counts coincide.
* `exit(1)`, a failed `assert`, and the exceptions thrown by `vector::at` and
  `std::stoi` end the process; they are the `Fatal` outcomes of `Except`.
* The log stream is observational only and is not modelled.
-/

namespace Pullet16

/-- Bit text such as `"0101"`, most significant bit first. -/
abbrev BitString := List Bool

/-- The ways in which the process can be terminated abnormally. -/
inductive Fatal where
  /-- A call of `exit(1)`. -/
  | exit1
  /-- The exception `std::out_of_range` thrown by `vector::at` (or `std::stoi`). -/
  | out_of_range
  /-- A failed `assert`. -/
  | assert_failed
  /-- The exception `std::invalid_argument` thrown by `std::stoi`. -/
  | invalid_argument
deriving DecidableEq, Repr

/-- Modelled from the spec: `DABnamespace::BitStringToDec` (its source is not
among the files); the spec reads a bit field "as unsigned", so this is the
unsigned value of the bit text. -/
def BitStringToDec (thebits : BitString) : Nat :=
  thebits.foldl (fun acc b => 2 * acc + (if b then 1 else 0)) 0

/-- The `width` low-order bits of `n`, most significant first. -/
def natToBits (n : Nat) : Nat → BitString
  | 0 => []
  | width + 1 => natToBits (n / 2) width ++ [decide (n % 2 = 1)]

/-- Modelled from the spec: `DABnamespace::DecToBitString` (its source is not
among the files); the spec says the value is encoded "as a 16-bit pattern" and
that "high-order bits beyond 16 are silently lost", so this is the pattern of
the value reduced modulo `2 ^ how_many_bits`. -/
def DecToBitString (value : Int) (how_many_bits : Nat) : BitString :=
  natToBits (value % (2 : Int) ^ how_many_bits).toNat how_many_bits

/-- Modelled from the spec: class `OneMemoryWord` (its source is not among the
files): "a fixed-width binary word exposing four logical fields — 3-bit
mnemonic code, 1-bit indirection flag, 12-bit address/operand payload — and a
raw bit-pattern view". -/
structure OneMemoryWord where
  /-- The sixteen bits of the word. -/
  bit_pattern_ : BitString
  /-- A word is sixteen bits wide. -/
  wf : bit_pattern_.length = 16
deriving DecidableEq

namespace OneMemoryWord

/-- Modelled from the spec: the raw bit-pattern view of a word. -/
def GetBitPattern (w : OneMemoryWord) : BitString := w.bit_pattern_

/-- Modelled from the spec: the 3-bit mnemonic code (the first three bits). -/
def GetMnemonicBits (w : OneMemoryWord) : BitString := w.bit_pattern_.take 3

/-- Modelled from the spec: the 1-bit indirection flag (the fourth bit). -/
def GetIndirectFlag (w : OneMemoryWord) : BitString := (w.bit_pattern_.drop 3).take 1

/-- Modelled from the spec: the 12-bit address field (the last twelve bits). -/
def GetAddressBits (w : OneMemoryWord) : BitString := w.bit_pattern_.drop 4

/-- Modelled from the spec: the word built from sixteen-bit text produced by
`DecToBitString(value, 16)`, as in `memory_.at(location) = to_store`. -/
def ofValue (value : Int) : OneMemoryWord :=
  ⟨DecToBitString value 16, by simp [DecToBitString, natToBits]⟩

end OneMemoryWord

/-- The constants and tables that the absent headers declare; they are taken
as parameters. -/
structure Config where
  /-- The constant `DABnamespace::kMaxMemory`. -/
  kMaxMemory : Nat
  /-- The constant `kPCForStop` of the interpreter. -/
  kPCForStop : Nat
  /-- The map `code_to_mnemonic_` from 3-bit codes to mnemonics. -/
  code_to_mnemonic_ : BitString → String
  /-- The value of `Hex::is_invalid_` before `ParseHexOperand` runs. -/
  hex_is_invalid_ : Bool
  /-- The value of `Hex::is_negative_` before `ParseHexOperand` runs. -/
  hex_is_negative_ : Bool

/-! ## `hex.cc` -/

/-- The C library predicate `isspace` in the default locale. -/
def isspace (c : Char) : Bool :=
  c = ' ' || c = '\t' || c = '\n' || c = '\x0b' || c = '\x0c' || c = '\r'

/-- The value of a hexadecimal digit, of either case, as `std::stoi` reads it. -/
def hexDigitValue (c : Char) : Option Nat :=
  if '0' ≤ c ∧ c ≤ '9' then some (c.toNat - '0'.toNat)
  else if 'a' ≤ c ∧ c ≤ 'f' then some (c.toNat - 'a'.toNat + 10)
  else if 'A' ≤ c ∧ c ≤ 'F' then some (c.toNat - 'A'.toNat + 10)
  else none

/-- The optional sign that `std::stoi` reads: whether it is a minus sign, and
the text after it. -/
def stoiSign (s : List Char) : Bool × List Char :=
  match s with
  | '-' :: r => (true, r)
  | '+' :: r => (false, r)
  | _ => (false, s)

/-- The optional `0x` or `0X` that `std::stoi` skips in base 16 when a
hexadecimal digit follows it. -/
def stoiPrefix (s : List Char) : List Char :=
  match s with
  | '0' :: x :: d :: r =>
    if (x = 'x' ∨ x = 'X') ∧ (hexDigitValue d).isSome then d :: r else s
  | _ => s

/-- The number that a run of hexadecimal digits denotes. -/
def stoiMagnitude (digits : List Char) : Nat :=
  digits.foldl (fun acc c => 16 * acc + (hexDigitValue c).getD 0) 0

/-- The library call `std::stoi(str, nullptr, 16)`: leading white space is
skipped, then an optional sign and an optional `0x` are read, then the
longest run of hexadecimal digits; no digit at all throws
`std::invalid_argument`, a value outside `int` throws `std::out_of_range`. -/
def stoi16 (str : List Char) : Except Fatal Int :=
  let signed := stoiSign (str.dropWhile isspace)
  let digits := (stoiPrefix signed.2).takeWhile (fun c => (hexDigitValue c).isSome)
  if digits = [] then .error .invalid_argument
  else
    let magnitude : Nat := stoiMagnitude digits
    let value : Int := if signed.1 then -(magnitude : Int) else magnitude
    if value < -2147483648 ∨ 2147483647 < value then .error .out_of_range
    else .ok value

/-- The members of a `Hex` object. -/
structure Hex where
  /-- Member `is_invalid_`. -/
  is_invalid_ : Bool
  /-- Member `is_negative_`. -/
  is_negative_ : Bool
  /-- Member `value_`. -/
  value_ : Int
  /-- Member `text_`. -/
  text_ : List Char
deriving DecidableEq

namespace Hex

/-- Function `Hex::ParseHexOperand`. -/
def ParseHexOperand (h : Hex) : Except Fatal Hex :=
  if h.text_.length ≠ 5 then .error .assert_failed
  else
    let h1 : Hex :=
      if h.text_.take 1 = ['+'] then { h with is_negative_ := false }
      else if h.text_.take 1 = ['-'] then { h with is_negative_ := true }
      else { h with is_invalid_ := true }
    let to_convert := h1.text_.drop 1
    match stoi16 to_convert with
    | .error e => .error e
    | .ok v =>
      let h2 : Hex := { h1 with value_ := v }
      .ok (if h2.is_negative_ then { h2 with value_ := h2.value_ * -1 } else h2)

/-- Function `Hex::Init`, as run by the constructor `Hex(text)`. The text is
held as its list of characters; for the ASCII lines of the data source these
are the bytes that `length` and `substr` work on. -/
def Init (cfg : Config) (text : String) : Except Fatal Hex :=
  ParseHexOperand
    { is_invalid_ := cfg.hex_is_invalid_, is_negative_ := cfg.hex_is_negative_,
      value_ := 0, text_ := text.data }

/-- Function `Hex::GetValue`. -/
def GetValue (h : Hex) : Int := h.value_

/-- Function `Hex::HasAnError`. -/
def HasAnError (h : Hex) : Bool := h.is_invalid_

end Hex

/-! ## `pullet16interpreter.cc` -/

/-- The members of an `Interpreter` object. -/
structure Interpreter where
  /-- Member `pc_`, the program counter. -/
  pc_ : Nat
  /-- Member `accum_`, the accumulator. -/
  accum_ : Int
  /-- Member `memory_`, the vector of memory words. -/
  memory_ : List OneMemoryWord
deriving DecidableEq

/-- One record written to the output stream by `DoWRT`. -/
structure OutputRecord where
  /-- The accumulator as a signed number. -/
  accum_to_write : Int
  /-- The sixteen-bit text of the accumulator. -/
  bits : BitString
deriving DecidableEq

/-- The interpreter together with the two streams that `Execute` is handed. -/
structure Machine where
  /-- The interpreter object. -/
  interp : Interpreter
  /-- Modelled from the spec: the `Scanner` handed to `DoRD` (its source is not
  among the files), "a second sequence of text lines ... consumed one per `RD`
  instruction"; these are the lines not read yet, `HasNext` is non-emptiness
  and `NextLine` takes the first. -/
  data_scanner : List String
  /-- The records written to the output stream so far. -/
  out_stream : List OutputRecord
deriving DecidableEq

/-- The call `memory_.at(i)`, which throws when `i` is not an index. -/
def memoryAt (memory : List OneMemoryWord) (i : Nat) : Except Fatal OneMemoryWord :=
  match memory[i]? with
  | some w => .ok w
  | none => .error .out_of_range

/-- The value that 32-bit two's-complement `int` arithmetic leaves when the
exact result is `x`: `x` itself inside `-2 ^ 31 .. 2 ^ 31 - 1`, and `x`
shifted by a multiple of `2 ^ 32` into that range otherwise. -/
def wrapInt32 (x : Int) : Int :=
  (x + 2147483648) % 4294967296 - 2147483648

/-- Function `Interpreter::TwosComplementInteger`. -/
def TwosComplementInteger (what : Int) : Int :=
  if what > 32768 then what - 65536 else what

/-- Function `Interpreter::FlagAddressOutOfBounds`. -/
def FlagAddressOutOfBounds (cfg : Config) (address : Int) : Except Fatal Unit :=
  if ¬ (address > 0 ∧ address ≤ cfg.kMaxMemory) then .error .exit1 else .ok ()

/-- Function `Interpreter::GetTargetLocation`. -/
def GetTargetLocation (it : Interpreter) (addr target : BitString) : Except Fatal Nat :=
  let converted_value := BitStringToDec target
  if ¬ (addr = [false] ∨ addr = [true]) then .error .assert_failed
  else if addr = [false] ∧ converted_value ≤ it.pc_ then .ok converted_value
  else if addr = [true] ∧ converted_value ≤ it.pc_ then
    match memoryAt it.memory_ converted_value with
    | .error e => .error e
    | .ok w => .ok (BitStringToDec w.GetAddressBits)
  else .ok 0

/-- Function `Interpreter::DoADD`. -/
def DoADD (it : Interpreter) (addr target : BitString) : Except Fatal Interpreter :=
  match GetTargetLocation it addr target with
  | .error e => .error e
  | .ok location =>
    match memoryAt it.memory_ location with
    | .error e => .error e
    | .ok w =>
      let val : Int := BitStringToDec w.GetBitPattern
      let converted_value := TwosComplementInteger val
      .ok { it with accum_ := wrapInt32 (TwosComplementInteger it.accum_ + converted_value) }

/-- Function `Interpreter::DoAND`. -/
def DoAND (it : Interpreter) (addr target : BitString) : Except Fatal Interpreter :=
  match GetTargetLocation it addr target with
  | .error e => .error e
  | .ok location =>
    match memoryAt it.memory_ location with
    | .error e => .error e
    | .ok w =>
      let add : Int := BitStringToDec w.GetBitPattern
      .ok { it with accum_ := Int.land it.accum_ add }

/-- Function `Interpreter::DoBAN`. -/
def DoBAN (it : Interpreter) (addr target : BitString) : Except Fatal Interpreter :=
  if it.accum_ < 0 then
    match GetTargetLocation it addr target with
    | .error e => .error e
    | .ok location => .ok { it with pc_ := location }
  else .ok it

/-- Function `Interpreter::DoBR`. -/
def DoBR (it : Interpreter) (addr target : BitString) : Except Fatal Interpreter :=
  match GetTargetLocation it addr target with
  | .error e => .error e
  | .ok location => .ok { it with pc_ := location }

/-- Function `Interpreter::DoLD`. -/
def DoLD (it : Interpreter) (addr target : BitString) : Except Fatal Interpreter :=
  match GetTargetLocation it addr target with
  | .error e => .error e
  | .ok location =>
    match memoryAt it.memory_ location with
    | .error e => .error e
    | .ok w =>
      let add : Int := BitStringToDec w.GetAddressBits
      .ok { it with accum_ := add }

/-- Function `Interpreter::DoRD`. -/
def DoRD (cfg : Config) (m : Machine) : Except Fatal Machine :=
  match m.data_scanner with
  | line :: rest =>
    match Hex.Init cfg line with
    | .error e => .error e
    | .ok convert =>
      .ok { m with
            interp := { m.interp with accum_ := TwosComplementInteger convert.GetValue },
            data_scanner := rest }
  | [] => .error .exit1

/-- Function `Interpreter::DoSTC`. -/
def DoSTC (it : Interpreter) (addr target : BitString) : Except Fatal Interpreter :=
  match GetTargetLocation it addr target with
  | .error e => .error e
  | .ok location =>
    if location < it.memory_.length then
      .ok { it with memory_ := it.memory_.set location (OneMemoryWord.ofValue it.accum_),
                    accum_ := 0 }
    else .error .out_of_range

/-- Function `Interpreter::DoSTP`. -/
def DoSTP (cfg : Config) (it : Interpreter) : Interpreter :=
  { it with pc_ := cfg.kPCForStop }

/-- Function `Interpreter::DoSUB`. -/
def DoSUB (it : Interpreter) (addr target : BitString) : Except Fatal Interpreter :=
  match GetTargetLocation it addr target with
  | .error e => .error e
  | .ok location =>
    match memoryAt it.memory_ location with
    | .error e => .error e
    | .ok w =>
      let address_bits := w.GetAddressBits
      let to_sub : Int := BitStringToDec address_bits
      .ok { it with accum_ := wrapInt32 (it.accum_ - to_sub) }

/-- Function `Interpreter::DoWRT`. -/
def DoWRT (m : Machine) : Machine :=
  let accum_to_write := TwosComplementInteger m.interp.accum_
  { m with out_stream :=
      m.out_stream ++ [⟨accum_to_write, DecToBitString m.interp.accum_ 16⟩] }

/-- Lift an operation on the interpreter object to the machine. -/
def onInterp (m : Machine) (r : Except Fatal Interpreter) : Except Fatal Machine :=
  match r with
  | .error e => .error e
  | .ok it => .ok { m with interp := it }

/-- Function `Interpreter::Execute`. -/
def Execute (cfg : Config) (m : Machine) (this_word : OneMemoryWord) : Except Fatal Machine :=
  let opcode := this_word.GetMnemonicBits
  let address := this_word.GetAddressBits
  let is_direct := this_word.GetIndirectFlag
  if opcode.length ≠ 3 then .error .assert_failed
  else
    let cmd := cfg.code_to_mnemonic_ opcode
    if cmd = "EEE" then
      let last_three := this_word.GetAddressBits.drop 9
      if last_three = [false, true, false] then .ok { m with interp := DoSTP cfg m.interp }
      else if last_three = [false, false, true] then DoRD cfg m
      else if last_three = [false, true, true] then .ok (DoWRT m)
      else .ok m
    else if cmd = "BAN" then onInterp m (DoBAN m.interp is_direct address)
    else if cmd = "SUB" then onInterp m (DoSUB m.interp is_direct address)
    else if cmd = "STC" then onInterp m (DoSTC m.interp is_direct address)
    else if cmd = "AND" then onInterp m (DoAND m.interp is_direct address)
    else if cmd = "ADD" then onInterp m (DoADD m.interp is_direct address)
    else if cmd = "LD " then onInterp m (DoLD m.interp is_direct address)
    else if cmd = "BR " then onInterp m (DoBR m.interp is_direct address)
    else .ok m

/-- One pass through the body of the `while` loop of `Interpreter::Interpret`;
the boolean is the value of `is_true` afterwards. -/
def InterpretStep (cfg : Config) (m : Machine) : Except Fatal (Bool × Machine) :=
  if m.interp.pc_ < m.interp.memory_.length then
    if m.interp.pc_ > cfg.kMaxMemory then .error .exit1
    else
      match memoryAt m.interp.memory_ m.interp.pc_ with
      | .error e => .error e
      | .ok w =>
        match Execute cfg m w with
        | .error e => .error e
        | .ok m1 => .ok (true, { m1 with interp := { m1.interp with pc_ := m1.interp.pc_ + 1 } })
  else .ok (false, m)

/-- The `while` loop of `Interpreter::Interpret`, run for at most `fuel`
passes; `none` means that the passes ran out before the loop ended. -/
def InterpretLoop (cfg : Config) : Nat → Machine → Except Fatal (Option Machine)
  | 0, _ => .ok none
  | fuel + 1, m =>
    match InterpretStep cfg m with
    | .error e => .error e
    | .ok (false, m1) => .ok (some m1)
    | .ok (true, m1) => InterpretLoop cfg fuel m1

/-- Function `Interpreter::Interpret`. -/
def Interpret (cfg : Config) (fuel : Nat) (m : Machine) : Except Fatal (Option Machine) :=
  InterpretLoop cfg fuel { m with interp := { m.interp with pc_ := 0 } }

/-- The states that the fetch-execute loop reaches from an initial state with
`pc_ = 0` and `accum_ = 0`, whatever the memory and the streams. -/
inductive Reachable (cfg : Config) : Machine → Prop where
  | init (memory : List OneMemoryWord) (data : List String) (out : List OutputRecord) :
      Reachable cfg ⟨⟨0, 0, memory⟩, data, out⟩
  | step (m m1 : Machine) (b : Bool) :
      Reachable cfg m → InterpretStep cfg m = .ok (b, m1) → Reachable cfg m1

/-- Modelled from the spec: one instance of the constants that the absent
headers declare, used to run the definitions on concrete programs. The memory
bound is the spec's "4095 decimal addresses", the stop value lies above it,
and the eight 3-bit codes are given to the mnemonics in the order of the
branch chain of `Execute`, with `EEE` last. Statements that do not depend on
these values take a `Config` as a parameter instead. -/
def pullet16 : Config where
  kMaxMemory := 4095
  kPCForStop := 4096
  code_to_mnemonic_ := fun code =>
    if code = [false, false, false] then "BAN"
    else if code = [false, false, true] then "SUB"
    else if code = [false, true, false] then "STC"
    else if code = [false, true, true] then "AND"
    else if code = [true, false, false] then "ADD"
    else if code = [true, false, true] then "LD "
    else if code = [true, true, false] then "BR "
    else "EEE"
  hex_is_invalid_ := false
  hex_is_negative_ := false

/-- The memory word with the given unsigned sixteen-bit value. -/
def word (n : Nat) : OneMemoryWord := OneMemoryWord.ofValue n


/-- The digits that the signed-literal token of the spec allows: "4 uppercase
hexadecimal digits", that is `0`-`9` and `A`-`F`. -/
def isUpperHexDigit (c : Char) : Bool :=
  decide (('0' ≤ c ∧ c ≤ '9') ∨ ('A' ≤ c ∧ c ≤ 'F'))

/-- The value of an uppercase hexadecimal digit. -/
def upperHexDigitValue (c : Char) : Nat :=
  if '0' ≤ c ∧ c ≤ '9' then c.toNat - '0'.toNat else c.toNat - 'A'.toNat + 10

/-- The magnitude that four uppercase hexadecimal digits denote, most
significant digit first. -/
def tokenMagnitude (d1 d2 d3 d4 : Char) : Nat :=
  4096 * upperHexDigitValue d1 + 256 * upperHexDigitValue d2
    + 16 * upperHexDigitValue d3 + upperHexDigitValue d4

/-- The well-formed signed-literal token of the spec: "exactly 5 characters —
one sign character (`+`/`-`) followed by 4 uppercase hexadecimal digits". -/
def isWellFormedToken (text : List Char) : Bool :=
  match text with
  | [sg, d1, d2, d3, d4] =>
    (sg = '+' || sg = '-') && isUpperHexDigit d1 && isUpperHexDigit d2
      && isUpperHexDigit d3 && isUpperHexDigit d4
  | _ => false

/-- The `while` loop of `Interpreter::ReadProgram`: every line that the
scanner still has is made into a word, pushed on the back of `memory_`, and
`pc_` is advanced by one. The constructor `OneMemoryWord(line)` is not among
the files; it is the parameter `decode`. -/
def ReadProgramLoop (decode : String → OneMemoryWord) (it : Interpreter) :
    List String → Interpreter
  | [] => it
  | line :: rest =>
    ReadProgramLoop decode
      { it with memory_ := it.memory_ ++ [decode line], pc_ := it.pc_ + 1 } rest

/-- Function `Interpreter::ReadProgram`. -/
def ReadProgram (decode : String → OneMemoryWord) (it : Interpreter)
    (in_scanner : List String) : Interpreter :=
  ReadProgramLoop decode { it with accum_ := 0, pc_ := 0 } in_scanner

/-- Whether `Execute` runs the word as a `BR`. -/
def isBR (cfg : Config) (w : OneMemoryWord) : Bool :=
  decide (cfg.code_to_mnemonic_ w.GetMnemonicBits = "BR ")

/-- Whether `Execute` runs the word as a `BAN` whose branch `DoBAN` takes. -/
def isTakenBAN (cfg : Config) (m : Machine) (w : OneMemoryWord) : Bool :=
  decide (cfg.code_to_mnemonic_ w.GetMnemonicBits = "BAN" ∧ m.interp.accum_ < 0)

/-- Whether `Execute` runs the word as an `STP`. -/
def isSTP (cfg : Config) (w : OneMemoryWord) : Bool :=
  decide (cfg.code_to_mnemonic_ w.GetMnemonicBits = "EEE"
    ∧ w.GetAddressBits.drop 9 = [false, true, false])

/-- Whether the pass of the loop that starts in this state executes a `BR` or
a taken `BAN`. -/
def executesBranch (cfg : Config) (m : Machine) : Bool :=
  match m.interp.memory_[m.interp.pc_]? with
  | some w => isBR cfg w || isTakenBAN cfg m w
  | none => false

/-- The states in which the loop of `Interpreter::Interpret`, run for at most
`fuel` passes, hands a word to `Execute`, in order: one entry for every
instruction execution. -/
def InterpretTrace (cfg : Config) : Nat → Machine → List Machine
  | 0, _ => []
  | fuel + 1, m =>
    if m.interp.pc_ < m.interp.memory_.length ∧ ¬ m.interp.pc_ > cfg.kMaxMemory then
      m :: (match InterpretStep cfg m with
            | .ok (true, m1) => InterpretTrace cfg fuel m1
            | _ => [])
    else []

/-! ## Bit text and numbers -/

theorem BitStringToDec_append_bit (bits : BitString) (b : Bool) :
    BitStringToDec (bits ++ [b]) = 2 * BitStringToDec bits + (if b then 1 else 0) := by
  simp [BitStringToDec, List.foldl_append]

theorem natToBits_length (n width : Nat) : (natToBits n width).length = width := by
  induction width generalizing n with
  | zero => rfl
  | succ k ih => simp [natToBits, ih]

theorem BitStringToDec_natToBits (n width : Nat) :
    BitStringToDec (natToBits n width) = n % 2 ^ width := by
  induction width generalizing n with
  | zero => simp [natToBits, BitStringToDec, Nat.mod_one]
  | succ k ih =>
    rw [natToBits, BitStringToDec_append_bit, ih, pow_succ, mul_comm (2 ^ k) 2, Nat.mod_mul]
    have h2 : n % 2 = 0 ∨ n % 2 = 1 := Nat.mod_two_eq_zero_or_one n
    rcases h2 with h | h
    · simp [h]
    · simp [h]; omega

theorem foldl_bits_lt (bits : BitString) (acc : Nat) :
    bits.foldl (fun acc b => 2 * acc + (if b then 1 else 0)) acc
      < (acc + 1) * 2 ^ bits.length := by
  induction bits generalizing acc with
  | nil => simp
  | cons b rest ih =>
    have h := ih (2 * acc + (if b then 1 else 0))
    simp only [List.foldl_cons, List.length_cons]
    have he : (acc + 1) * 2 ^ (rest.length + 1) = (2 * acc + 2) * 2 ^ rest.length := by ring
    have hb : (2 * acc + (if b then 1 else 0) + 1) * 2 ^ rest.length
        ≤ (2 * acc + 2) * 2 ^ rest.length := by
      apply Nat.mul_le_mul_right
      cases b <;> simp
    omega

theorem BitStringToDec_lt (bits : BitString) : BitStringToDec bits < 2 ^ bits.length := by
  have h := foldl_bits_lt bits 0
  simpa [BitStringToDec] using h

theorem BitStringToDec_GetBitPattern_lt (w : OneMemoryWord) :
    BitStringToDec w.GetBitPattern < 65536 := by
  have h := BitStringToDec_lt w.GetBitPattern
  rw [OneMemoryWord.GetBitPattern, w.wf] at h
  simpa [OneMemoryWord.GetBitPattern] using h

theorem BitStringToDec_GetAddressBits_lt (w : OneMemoryWord) :
    BitStringToDec w.GetAddressBits < 4096 := by
  have h := BitStringToDec_lt w.GetAddressBits
  have hl : w.GetAddressBits.length = 12 := by
    simp [OneMemoryWord.GetAddressBits, w.wf]
  rw [hl] at h
  simpa using h

theorem BitStringToDec_DecToBitString (value : Int) :
    ((BitStringToDec (DecToBitString value 16) : Nat) : Int) = value % 65536 := by
  rw [DecToBitString, BitStringToDec_natToBits]
  have h0 : (0 : Int) ≤ value % 65536 := Int.emod_nonneg _ (by norm_num)
  have h1 : value % 65536 < 65536 := Int.emod_lt_of_pos _ (by norm_num)
  have hp : ((2 : Int) ^ 16) = 65536 := by norm_num
  rw [hp]
  have hlt : (value % 65536).toNat < 2 ^ 16 := by
    have : (value % 65536).toNat < 65536 := by omega
    simpa using this
  rw [Nat.mod_eq_of_lt hlt]
  exact Int.toNat_of_nonneg h0

/-! ## Address resolution -/

/-- C4: in indirect mode (flag `"1"`) `GetTargetLocation` returns the unsigned
value of the address field of the word stored at `memory_[a]` when the
address field `a` of the instruction is at most `pc_`, and `0` when `a`
exceeds `pc_`. -/
theorem GetTargetLocation_indirect (it : Interpreter) (target : BitString)
    (w : OneMemoryWord) :
    (BitStringToDec target ≤ it.pc_ → it.memory_[BitStringToDec target]? = some w →
      GetTargetLocation it [true] target = .ok (BitStringToDec w.GetAddressBits)) ∧
    (it.pc_ < BitStringToDec target → GetTargetLocation it [true] target = .ok 0) := by
  constructor
  · intro hle hw
    simp [GetTargetLocation, memoryAt, hle, hw]
  · intro hlt
    have hn : ¬ BitStringToDec target ≤ it.pc_ := by omega
    simp [GetTargetLocation, hn]

theorem GetTargetLocation_indirect_witness :
    BitStringToDec (natToBits 1 12) ≤ (⟨2, 0, [word 3, word 7, word 0]⟩ : Interpreter).pc_ ∧
    (⟨2, 0, [word 3, word 7, word 0]⟩ : Interpreter).memory_[BitStringToDec (natToBits 1 12)]?
      = some (word 7) ∧
    GetTargetLocation ⟨2, 0, [word 3, word 7, word 0]⟩ [true] (natToBits 1 12)
      = .ok (BitStringToDec (word 7).GetAddressBits) ∧
    BitStringToDec (word 7).GetAddressBits = 7 :=
  ⟨by decide, by rfl,
   (GetTargetLocation_indirect ⟨2, 0, [word 3, word 7, word 0]⟩ (natToBits 1 12) (word 7)).1
     (by decide) (by rfl),
   by rfl⟩

/-- C5: in direct mode (flag `"0"`) `GetTargetLocation` returns the unsigned
value `a` of the address field when `a` is at most `pc_` and `0` when `a`
exceeds `pc_`, and the result is the same whatever the memory holds. -/
theorem GetTargetLocation_direct (it : Interpreter) (target : BitString) :
    (BitStringToDec target ≤ it.pc_ →
      GetTargetLocation it [false] target = .ok (BitStringToDec target)) ∧
    (it.pc_ < BitStringToDec target → GetTargetLocation it [false] target = .ok 0) ∧
    (∀ memory : List OneMemoryWord,
      GetTargetLocation { it with memory_ := memory } [false] target
        = GetTargetLocation it [false] target) := by
  refine ⟨?_, ?_, ?_⟩
  · intro hle
    simp [GetTargetLocation, hle]
  · intro hlt
    have hn : ¬ BitStringToDec target ≤ it.pc_ := by omega
    simp [GetTargetLocation, hn]
  · intro memory
    simp [GetTargetLocation]

theorem GetTargetLocation_direct_witness :
    BitStringToDec (natToBits 1 12) ≤ (⟨2, 0, [word 3, word 7, word 0]⟩ : Interpreter).pc_ ∧
    GetTargetLocation ⟨2, 0, [word 3, word 7, word 0]⟩ [false] (natToBits 1 12) = .ok 1 ∧
    (⟨2, 0, [word 3, word 7, word 0]⟩ : Interpreter).pc_ < BitStringToDec (natToBits 9 12) ∧
    GetTargetLocation ⟨2, 0, [word 3, word 7, word 0]⟩ [false] (natToBits 9 12) = .ok 0 :=
  ⟨by decide,
   (GetTargetLocation_direct ⟨2, 0, [word 3, word 7, word 0]⟩ (natToBits 1 12)).1 (by decide),
   by decide,
   (GetTargetLocation_direct ⟨2, 0, [word 3, word 7, word 0]⟩ (natToBits 9 12)).2.1
     (by decide)⟩

/-! ## The two's-complement conversion -/

/-- C6: for every `v` with `0 ≤ v ≤ 65535`, `TwosComplementInteger v` is `v`
when `v ≤ 32768` and `v - 65536` otherwise. -/
theorem TwosComplementInteger_spec (v : Int) (h0 : 0 ≤ v) (h1 : v ≤ 65535) :
    TwosComplementInteger v = if v ≤ 32768 then v else v - 65536 := by
  unfold TwosComplementInteger
  by_cases h : v ≤ 32768
  · have hn : ¬ v > 32768 := by omega
    simp [h, hn]
  · have hp : v > 32768 := by omega
    simp [h, hp]

theorem TwosComplementInteger_spec_witness :
    (0 : Int) ≤ 40000 ∧ (40000 : Int) ≤ 65535 ∧
    TwosComplementInteger 40000 = if (40000 : Int) ≤ 32768 then 40000 else 40000 - 65536 :=
  ⟨by decide, by decide, TwosComplementInteger_spec 40000 (by decide) (by decide)⟩

/-- C7: at the pattern `32768` (bit 15 set, all other bits clear)
`TwosComplementInteger` returns `32768`: the result is not negative and lies
outside `-32768..32767`, whereas the sixteen-bit two's-complement reading of
that pattern is `-32768`. -/
theorem TwosComplementInteger_32768 :
    TwosComplementInteger 32768 = 32768 ∧
    ¬ (TwosComplementInteger 32768 < 0) ∧
    ¬ (TwosComplementInteger 32768 ≤ 32767) ∧
    TwosComplementInteger 32769 = -32767 := by
  decide

/-- C8: for every pattern `v` with `0 ≤ v ≤ 65535`, reducing
`TwosComplementInteger v` modulo `65536` gives `v` back, and so does reading
the sixteen-bit text that `DecToBitString` produces for it. -/
theorem TwosComplementInteger_roundtrip (v : Int) (h0 : 0 ≤ v) (h1 : v ≤ 65535) :
    TwosComplementInteger v % 65536 = v ∧
    ((BitStringToDec (DecToBitString (TwosComplementInteger v) 16) : Nat) : Int) = v := by
  have h : TwosComplementInteger v % 65536 = v := by
    unfold TwosComplementInteger
    split <;> omega
  exact ⟨h, by rw [BitStringToDec_DecToBitString, h]⟩

theorem TwosComplementInteger_roundtrip_witness :
    (0 : Int) ≤ 40000 ∧ (40000 : Int) ≤ 65535 ∧
    TwosComplementInteger 40000 = -25536 ∧
    TwosComplementInteger 40000 % 65536 = 40000 ∧
    ((BitStringToDec (DecToBitString (TwosComplementInteger 40000) 16) : Nat) : Int) = 40000 :=
  ⟨by decide, by decide, by decide,
   TwosComplementInteger_roundtrip 40000 (by decide) (by decide)⟩

/-! ## Instructions -/

theorem wrapInt32_range (x : Int) :
    -2147483648 ≤ wrapInt32 x ∧ wrapInt32 x ≤ 2147483647 := by
  unfold wrapInt32
  omega

theorem wrapInt32_of_range (x : Int) (h1 : -2147483648 ≤ x) (h2 : x ≤ 2147483647) :
    wrapInt32 x = x := by
  unfold wrapInt32
  omega

/-- C10 (amended): when the address of an `ADD` resolves to a location `L`
that holds a word, `DoADD` ends normally, whatever the size of the sum, and
leaves the accumulator equal to the 32-bit `int` value of
`TwosComplementInteger` of the old accumulator plus `TwosComplementInteger`
of the unsigned value of the whole bit pattern of that word: the sum itself
whenever it lies in `-2 ^ 31 .. 2 ^ 31 - 1`, which is so for every old
accumulator from `-2147450881` up, and the sum wrapped around modulo
`2 ^ 32` otherwise; `pc_` and `memory_` are unchanged. -/
theorem DoADD_spec (it : Interpreter) (addr target : BitString) (L : Nat)
    (w : OneMemoryWord) (hL : GetTargetLocation it addr target = .ok L)
    (hw : it.memory_[L]? = some w) :
    DoADD it addr target =
      .ok { pc_ := it.pc_,
            accum_ := wrapInt32 (TwosComplementInteger it.accum_
              + TwosComplementInteger (BitStringToDec w.GetBitPattern)),
            memory_ := it.memory_ } ∧
    (-2147483648 ≤ TwosComplementInteger it.accum_
        + TwosComplementInteger (BitStringToDec w.GetBitPattern) →
      TwosComplementInteger it.accum_
        + TwosComplementInteger (BitStringToDec w.GetBitPattern) ≤ 2147483647 →
      DoADD it addr target =
        .ok { pc_ := it.pc_,
              accum_ := TwosComplementInteger it.accum_
                + TwosComplementInteger (BitStringToDec w.GetBitPattern),
              memory_ := it.memory_ }) ∧
    (-2147450881 ≤ it.accum_ → it.accum_ ≤ 2147483647 →
      DoADD it addr target =
        .ok { pc_ := it.pc_,
              accum_ := TwosComplementInteger it.accum_
                + TwosComplementInteger (BitStringToDec w.GetBitPattern),
              memory_ := it.memory_ }) := by
  have hA : DoADD it addr target =
      .ok { pc_ := it.pc_,
            accum_ := wrapInt32 (TwosComplementInteger it.accum_
              + TwosComplementInteger (BitStringToDec w.GetBitPattern)),
            memory_ := it.memory_ } := by
    simp [DoADD, hL, memoryAt, hw]
  refine ⟨hA, ?_, ?_⟩
  · intro h1 h2
    rw [hA, wrapInt32_of_range _ h1 h2]
  · intro h1 h2
    have hu := BitStringToDec_GetBitPattern_lt w
    have hr : -2147483648 ≤ TwosComplementInteger it.accum_
          + TwosComplementInteger (BitStringToDec w.GetBitPattern)
        ∧ TwosComplementInteger it.accum_
          + TwosComplementInteger (BitStringToDec w.GetBitPattern) ≤ 2147483647 := by
      unfold TwosComplementInteger
      split <;> split <;> omega
    rw [hA, wrapInt32_of_range _ hr.1 hr.2]

theorem DoADD_spec_witness :
    GetTargetLocation ⟨2, 30000, [word 3, word 30000, word 0x8001]⟩ [false] (natToBits 1 12)
      = .ok 1 ∧
    (⟨2, 30000, [word 3, word 30000, word 0x8001]⟩ : Interpreter).memory_[1]?
      = some (word 30000) ∧
    (-2147450881 : Int) ≤ (⟨2, 30000, [word 3, word 30000, word 0x8001]⟩ : Interpreter).accum_ ∧
    (⟨2, 30000, [word 3, word 30000, word 0x8001]⟩ : Interpreter).accum_ ≤ 2147483647 ∧
    DoADD ⟨2, 30000, [word 3, word 30000, word 0x8001]⟩ [false] (natToBits 1 12)
      = .ok ⟨2, 60000, [word 3, word 30000, word 0x8001]⟩ :=
  ⟨by rfl, by rfl, by decide, by decide,
   (DoADD_spec ⟨2, 30000, [word 3, word 30000, word 0x8001]⟩ [false] (natToBits 1 12) 1
     (word 30000) (by rfl) (by rfl)).2.2 (by decide) (by decide)⟩

/-! ## Where the code departs from its documentation -/

/-- C1: a run of the loop reaches `pc_ = 4` with the accumulator holding
`40000`, whose two's-complement reading is negative; the `BAN` at address 4
resolves to location `0`, yet `DoBAN` leaves `pc_` at 4 and the loop goes on
to address 5: the branch is not taken, because `DoBAN` tests the stored
accumulator itself. -/
theorem DoBAN_skips_negative_pattern :
    Reachable pullet16
      ⟨⟨4, 40000, [word 20000, word 0x4000, word 0x8000, word 0x8000, word 0]⟩, [], []⟩ ∧
    TwosComplementInteger 40000 < 0 ∧
    GetTargetLocation ⟨4, 40000, [word 20000, word 0x4000, word 0x8000, word 0x8000, word 0]⟩
      [false] (natToBits 0 12) = .ok 0 ∧
    DoBAN ⟨4, 40000, [word 20000, word 0x4000, word 0x8000, word 0x8000, word 0]⟩
      [false] (natToBits 0 12)
      = .ok ⟨4, 40000, [word 20000, word 0x4000, word 0x8000, word 0x8000, word 0]⟩ ∧
    InterpretStep pullet16
      ⟨⟨4, 40000, [word 20000, word 0x4000, word 0x8000, word 0x8000, word 0]⟩, [], []⟩
      = .ok (true,
          ⟨⟨5, 40000, [word 20000, word 0x4000, word 0x8000, word 0x8000, word 0]⟩, [], []⟩) := by
  refine ⟨?_, by decide, by rfl, by rfl, by rfl⟩
  have h0 : Reachable pullet16
      ⟨⟨0, 0, [word 0xE001, word 0x4000, word 0x8000, word 0x8000, word 0]⟩, ["+4E20"], []⟩ :=
    Reachable.init _ _ _
  have h1 := Reachable.step _
    ⟨⟨1, 20000, [word 0xE001, word 0x4000, word 0x8000, word 0x8000, word 0]⟩, [], []⟩
    true h0 (by rfl)
  have h2 := Reachable.step _
    ⟨⟨2, 0, [word 20000, word 0x4000, word 0x8000, word 0x8000, word 0]⟩, [], []⟩
    true h1 (by rfl)
  have h3 := Reachable.step _
    ⟨⟨3, 20000, [word 20000, word 0x4000, word 0x8000, word 0x8000, word 0]⟩, [], []⟩
    true h2 (by rfl)
  exact Reachable.step _
    ⟨⟨4, 40000, [word 20000, word 0x4000, word 0x8000, word 0x8000, word 0]⟩, [], []⟩
    true h3 (by rfl)

/-- C2: with `pc_ = 2` and a `BR` at address 2 whose address resolves to
location `0`, one pass of the loop body leaves `pc_ = 1`, not `0`: the loop
adds one to `pc_` after `DoBR` has assigned it, so the word fetched next is
the one at address 1. -/
theorem InterpretStep_BR_lands_one_past :
    (word 0xC000).GetMnemonicBits = [true, true, false] ∧
    pullet16.code_to_mnemonic_ (word 0xC000).GetMnemonicBits = "BR " ∧
    GetTargetLocation ⟨2, 0, [word 3, word 7, word 0xC000]⟩
      (word 0xC000).GetIndirectFlag (word 0xC000).GetAddressBits = .ok 0 ∧
    DoBR ⟨2, 0, [word 3, word 7, word 0xC000]⟩
      (word 0xC000).GetIndirectFlag (word 0xC000).GetAddressBits
      = .ok ⟨0, 0, [word 3, word 7, word 0xC000]⟩ ∧
    InterpretStep pullet16 ⟨⟨2, 0, [word 3, word 7, word 0xC000]⟩, [], []⟩
      = .ok (true, ⟨⟨1, 0, [word 3, word 7, word 0xC000]⟩, [], []⟩) :=
  ⟨by rfl, by rfl, by rfl, by rfl, by rfl⟩

/-- C3 (as stated, refuted): location `0` fails the test `0 < location`, the
one that `FlagAddressOutOfBounds` makes, but no instruction makes that test:
an `ADD` whose direct target is `0`, and one whose forward reference resolves
to `0`, both read the word at location `0` and end normally, and an `STC` to
location `0` overwrites that word. -/
theorem location_zero_is_accessed :
    FlagAddressOutOfBounds pullet16 0 = .error .exit1 ∧
    GetTargetLocation ⟨1, 0, [word 5, word 0x8000]⟩ [false] (natToBits 0 12) = .ok 0 ∧
    DoADD ⟨1, 0, [word 5, word 0x8000]⟩ [false] (natToBits 0 12)
      = .ok ⟨1, 5, [word 5, word 0x8000]⟩ ∧
    GetTargetLocation ⟨1, 0, [word 5, word 0x8009]⟩ [false] (natToBits 9 12) = .ok 0 ∧
    DoADD ⟨1, 0, [word 5, word 0x8009]⟩ [false] (natToBits 9 12)
      = .ok ⟨1, 5, [word 5, word 0x8009]⟩ ∧
    DoSTC ⟨1, 9, [word 5, word 0x4000]⟩ [false] (natToBits 0 12)
      = .ok ⟨1, 0, [word 9, word 0x4000]⟩ ∧
    InterpretStep pullet16 ⟨⟨1, 0, [word 5, word 0x8000]⟩, [], []⟩
      = .ok (true, ⟨⟨2, 5, [word 5, word 0x8000]⟩, [], []⟩) :=
  ⟨by rfl, by rfl, by rfl, by rfl, by rfl, by rfl, by rfl⟩

/-! ## The range of the accumulator -/

theorem hexDigitValue_getD_le (c : Char) : (hexDigitValue c).getD 0 ≤ 15 := by
  unfold hexDigitValue
  split_ifs with h1 h2 h3
  · have hb : c.toNat ≤ 57 := h1.2
    have h0 : '0'.toNat = 48 := rfl
    simp only [Option.getD_some, h0]
    omega
  · have hb : c.toNat ≤ 102 := h2.2
    have h0 : 'a'.toNat = 97 := rfl
    simp only [Option.getD_some, h0]
    omega
  · have hb : c.toNat ≤ 70 := h3.2
    have h0 : 'A'.toNat = 65 := rfl
    simp only [Option.getD_some, h0]
    omega
  · simp

theorem foldl_hex_lt (digits : List Char) (acc : Nat) :
    digits.foldl (fun acc c => 16 * acc + (hexDigitValue c).getD 0) acc
      < (acc + 1) * 16 ^ digits.length := by
  induction digits generalizing acc with
  | nil => simp
  | cons c rest ih =>
    have h := ih (16 * acc + (hexDigitValue c).getD 0)
    have hc := hexDigitValue_getD_le c
    simp only [List.foldl_cons, List.length_cons]
    have he : (acc + 1) * 16 ^ (rest.length + 1) = (16 * acc + 16) * 16 ^ rest.length := by ring
    have hb : (16 * acc + (hexDigitValue c).getD 0 + 1) * 16 ^ rest.length
        ≤ (16 * acc + 16) * 16 ^ rest.length := by
      apply Nat.mul_le_mul_right
      omega
    omega

theorem stoiMagnitude_lt (digits : List Char) (h : digits.length ≤ 4) :
    stoiMagnitude digits < 65536 := by
  have h1 := foldl_hex_lt digits 0
  have h2 : 16 ^ digits.length ≤ 16 ^ 4 := Nat.pow_le_pow_right (by norm_num) h
  simp only [stoiMagnitude]
  omega

theorem stoiSign_length_le (s : List Char) : (stoiSign s).2.length ≤ s.length := by
  unfold stoiSign
  split <;> simp

theorem stoiPrefix_length_le (s : List Char) : (stoiPrefix s).length ≤ s.length := by
  unfold stoiPrefix
  split
  · split <;> simp
  · simp

theorem stoi16_bound (str : List Char) (v : Int) (hlen : str.length ≤ 4)
    (h : stoi16 str = .ok v) : -65535 ≤ v ∧ v ≤ 65535 := by
  have h1 : (str.dropWhile isspace).length ≤ str.length :=
    (List.dropWhile_suffix isspace).length_le
  have h2 := stoiSign_length_le (str.dropWhile isspace)
  have h3 := stoiPrefix_length_le (stoiSign (str.dropWhile isspace)).2
  have h4 : ((stoiPrefix (stoiSign (str.dropWhile isspace)).2).takeWhile
      (fun c => (hexDigitValue c).isSome)).length
      ≤ (stoiPrefix (stoiSign (str.dropWhile isspace)).2).length :=
    (List.takeWhile_prefix _).length_le
  have hm := stoiMagnitude_lt ((stoiPrefix (stoiSign (str.dropWhile isspace)).2).takeWhile
      (fun c => (hexDigitValue c).isSome)) (by omega)
  simp only [stoi16] at h
  generalize stoiMagnitude ((stoiPrefix (stoiSign (str.dropWhile isspace)).2).takeWhile
      (fun c => (hexDigitValue c).isSome)) = M at h hm
  generalize (stoiSign (str.dropWhile isspace)).1 = sg at h
  split_ifs at h with c1 c2 c3
  all_goals (have hv := Except.ok.inj h; omega)

theorem ParseHexOperand_value_bound (h r : Hex) (hr : Hex.ParseHexOperand h = .ok r) :
    -65535 ≤ r.value_ ∧ r.value_ ≤ 65535 := by
  unfold Hex.ParseHexOperand at hr
  by_cases hlen : h.text_.length ≠ 5
  · rw [if_pos hlen] at hr
    cases hr
  · rw [if_neg hlen] at hr
    have hl : h.text_.length = 5 := by simpa using hlen
    dsimp only at hr
    generalize hh1 : (if h.text_.take 1 = ['+'] then ({ h with is_negative_ := false } : Hex)
      else if h.text_.take 1 = ['-'] then { h with is_negative_ := true }
      else { h with is_invalid_ := true }) = h1 at hr
    have ht : h1.text_ = h.text_ := by
      subst hh1
      split_ifs <;> rfl
    split at hr
    · cases hr
    · rename_i v hv
      have hb := stoi16_bound _ v (by simp [ht, hl]) hv
      have hr1 := Except.ok.inj hr
      subst hr1
      split_ifs <;> simp only <;> omega

theorem land_natCast_bound (a : Int) (n : Nat) (hn : n < 65536) :
    0 ≤ Int.land a n ∧ Int.land a n < 65536 := by
  cases a with
  | ofNat m =>
    have h : m &&& n ≤ n := Nat.and_le_right
    show (0 : Int) ≤ ((m &&& n : Nat) : Int) ∧ ((m &&& n : Nat) : Int) < 65536
    omega
  | negSucc m =>
    have h : Nat.ldiff n m < 2 ^ 16 := by
      apply Nat.lt_pow_two_of_testBit
      intro i hi
      have hlt : n < 2 ^ i :=
        lt_of_lt_of_le (by simpa using hn) (Nat.pow_le_pow_right (by norm_num) hi)
      rw [Nat.testBit_ldiff, Nat.testBit_lt_two_pow hlt]
      rfl
    show (0 : Int) ≤ ((Nat.ldiff n m : Nat) : Int) ∧ ((Nat.ldiff n m : Nat) : Int) < 65536
    have h16 : (2 : Nat) ^ 16 = 65536 := by norm_num
    omega

theorem TwosComplementInteger_range (x : Int) (h1 : -65535 ≤ x) (h2 : x ≤ 65535) :
    -65535 ≤ TwosComplementInteger x ∧ TwosComplementInteger x ≤ 32768 := by
  unfold TwosComplementInteger
  split <;> omega

theorem DoADD_accum_range (it r : Interpreter) (addr target : BitString)
    (h : DoADD it addr target = .ok r) :
    -2147483648 ≤ r.accum_ ∧ r.accum_ ≤ 2147483647 := by
  unfold DoADD at h
  split at h
  · cases h
  · split at h
    · cases h
    · have hr := Except.ok.inj h
      subst hr
      exact wrapInt32_range _

theorem DoSUB_accum_range (it r : Interpreter) (addr target : BitString)
    (h : DoSUB it addr target = .ok r) :
    -2147483648 ≤ r.accum_ ∧ r.accum_ ≤ 2147483647 := by
  unfold DoSUB at h
  split at h
  · cases h
  · split at h
    · cases h
    · have hr := Except.ok.inj h
      subst hr
      exact wrapInt32_range _

theorem DoAND_accum_range (it r : Interpreter) (addr target : BitString)
    (h : DoAND it addr target = .ok r) : 0 ≤ r.accum_ ∧ r.accum_ ≤ 65535 := by
  unfold DoAND at h
  split at h
  · cases h
  · split at h
    · cases h
    · rename_i w _
      have hr := Except.ok.inj h
      subst hr
      have hb := land_natCast_bound it.accum_ _ (BitStringToDec_GetBitPattern_lt w)
      simp only
      omega

theorem DoLD_accum_range (it r : Interpreter) (addr target : BitString)
    (h : DoLD it addr target = .ok r) : 0 ≤ r.accum_ ∧ r.accum_ ≤ 4095 := by
  unfold DoLD at h
  split at h
  · cases h
  · split at h
    · cases h
    · rename_i w _
      have hr := Except.ok.inj h
      subst hr
      have hw := BitStringToDec_GetAddressBits_lt w
      simp only
      omega

theorem DoRD_accum_range (cfg : Config) (m r : Machine) (h : DoRD cfg m = .ok r) :
    -65535 ≤ r.interp.accum_ ∧ r.interp.accum_ ≤ 32768 := by
  unfold DoRD at h
  split at h
  · split at h
    · cases h
    · rename_i convert hc
      have hr := Except.ok.inj h
      subst hr
      have hb := ParseHexOperand_value_bound _ convert hc
      exact TwosComplementInteger_range convert.GetValue hb.1 hb.2
  · cases h

theorem DoBAN_accum (it r : Interpreter) (addr target : BitString)
    (h : DoBAN it addr target = .ok r) : r.accum_ = it.accum_ := by
  unfold DoBAN at h
  split_ifs at h
  · split at h
    · cases h
    · have hr := Except.ok.inj h
      subst hr
      rfl
  · have hr := Except.ok.inj h
    subst hr
    rfl

theorem DoBR_accum (it r : Interpreter) (addr target : BitString)
    (h : DoBR it addr target = .ok r) : r.accum_ = it.accum_ := by
  unfold DoBR at h
  split at h
  · cases h
  · have hr := Except.ok.inj h
    subst hr
    rfl

theorem DoSTC_accum (it r : Interpreter) (addr target : BitString)
    (h : DoSTC it addr target = .ok r) : r.accum_ = 0 := by
  unfold DoSTC at h
  split at h
  · cases h
  · split_ifs at h
    have hr := Except.ok.inj h
    subst hr
    rfl

theorem onInterp_ok (m m1 : Machine) (r : Except Fatal Interpreter)
    (h : onInterp m r = .ok m1) : ∃ it, r = .ok it ∧ m1.interp = it := by
  unfold onInterp at h
  split at h
  · cases h
  · rename_i it
    have hr := Except.ok.inj h
    subst hr
    exact ⟨it, rfl, rfl⟩

theorem Execute_accum_range (cfg : Config) (m m1 : Machine) (w : OneMemoryWord)
    (h : Execute cfg m w = .ok m1)
    (ha : -2147483648 ≤ m.interp.accum_ ∧ m.interp.accum_ ≤ 2147483647) :
    -2147483648 ≤ m1.interp.accum_ ∧ m1.interp.accum_ ≤ 2147483647 := by
  unfold Execute at h
  dsimp only at h
  split_ifs at h
  · have hr := Except.ok.inj h
    subst hr
    exact ha
  · have hb := DoRD_accum_range cfg m m1 h
    omega
  · have hr := Except.ok.inj h
    subst hr
    exact ha
  · have hr := Except.ok.inj h
    subst hr
    exact ha
  · obtain ⟨it, hit, he⟩ := onInterp_ok _ _ _ h
    rw [he, DoBAN_accum _ _ _ _ hit]
    exact ha
  · obtain ⟨it, hit, he⟩ := onInterp_ok _ _ _ h
    rw [he]
    exact DoSUB_accum_range _ _ _ _ hit
  · obtain ⟨it, hit, he⟩ := onInterp_ok _ _ _ h
    rw [he, DoSTC_accum _ _ _ _ hit]
    omega
  · obtain ⟨it, hit, he⟩ := onInterp_ok _ _ _ h
    rw [he]
    have hb := DoAND_accum_range _ _ _ _ hit
    omega
  · obtain ⟨it, hit, he⟩ := onInterp_ok _ _ _ h
    rw [he]
    exact DoADD_accum_range _ _ _ _ hit
  · obtain ⟨it, hit, he⟩ := onInterp_ok _ _ _ h
    rw [he]
    have hb := DoLD_accum_range _ _ _ _ hit
    omega
  · obtain ⟨it, hit, he⟩ := onInterp_ok _ _ _ h
    rw [he, DoBR_accum _ _ _ _ hit]
    exact ha
  · have hr := Except.ok.inj h
    subst hr
    exact ha

theorem InterpretStep_accum_range (cfg : Config) (m m1 : Machine) (b : Bool)
    (h : InterpretStep cfg m = .ok (b, m1))
    (ha : -2147483648 ≤ m.interp.accum_ ∧ m.interp.accum_ ≤ 2147483647) :
    -2147483648 ≤ m1.interp.accum_ ∧ m1.interp.accum_ ≤ 2147483647 := by
  unfold InterpretStep at h
  split_ifs at h
  · split at h
    · cases h
    · split at h
      · cases h
      · rename_i m2 hm2
        have hr := Except.ok.inj h
        have h2 : m1 = { m2 with interp := { m2.interp with pc_ := m2.interp.pc_ + 1 } } :=
          (congrArg Prod.snd hr).symm
        rw [h2]
        exact Execute_accum_range cfg m m2 _ hm2 ha
  · have hr := Except.ok.inj h
    have h2 : m1 = m := (congrArg Prod.snd hr).symm
    rw [h2]
    exact ha

/-! ## The address field as part of the bit pattern -/

theorem foldl_bits_shift (bits : BitString) (acc : Nat) :
    bits.foldl (fun acc b => 2 * acc + (if b then 1 else 0)) acc
      = acc * 2 ^ bits.length + BitStringToDec bits := by
  induction bits generalizing acc with
  | nil => simp [BitStringToDec]
  | cons b rest ih =>
    have h1 := ih (2 * acc + (if b then 1 else 0))
    have h2 := ih (2 * 0 + (if b then 1 else 0))
    simp only [BitStringToDec, List.foldl_cons, List.length_cons] at h1 h2 ⊢
    rw [h1, h2, pow_succ]
    ring

theorem BitStringToDec_append (xs ys : BitString) :
    BitStringToDec (xs ++ ys) = BitStringToDec xs * 2 ^ ys.length + BitStringToDec ys := by
  have h := foldl_bits_shift ys (BitStringToDec xs)
  simpa [BitStringToDec, List.foldl_append] using h

theorem BitStringToDec_GetAddressBits (w : OneMemoryWord) :
    BitStringToDec w.GetAddressBits = BitStringToDec w.GetBitPattern % 4096 := by
  have hsplit : w.bit_pattern_ = w.bit_pattern_.take 4 ++ w.bit_pattern_.drop 4 :=
    (List.take_append_drop 4 w.bit_pattern_).symm
  have hlen : (w.bit_pattern_.drop 4).length = 12 := by simp [w.wf]
  have happ := BitStringToDec_append (w.bit_pattern_.take 4) (w.bit_pattern_.drop 4)
  rw [← hsplit, hlen] at happ
  have hlt := BitStringToDec_GetAddressBits_lt w
  simp only [OneMemoryWord.GetAddressBits, OneMemoryWord.GetBitPattern] at hlt ⊢
  omega

theorem BitStringToDec_ofValue (value : Int) :
    ((BitStringToDec (OneMemoryWord.ofValue value).GetBitPattern : Nat) : Int)
      = value % 65536 :=
  BitStringToDec_DecToBitString value

theorem BitStringToDec_ofValue_address (value : Int) :
    ((BitStringToDec (OneMemoryWord.ofValue value).GetAddressBits : Nat) : Int)
      = value % 4096 := by
  have h1 := BitStringToDec_GetAddressBits (OneMemoryWord.ofValue value)
  have h2 := BitStringToDec_ofValue value
  omega

/-! ## `SUB`, `LD` and `AND` -/

/-- C11 (amended): when the address of a `SUB` resolves to a location `L`
that holds a word, `DoSUB` ends normally and leaves the accumulator equal to
the 32-bit `int` value of the old stored accumulator minus the unsigned value
`a` of the 12-bit address field of that word: the difference itself whenever
it lies in `-2 ^ 31 .. 2 ^ 31 - 1`, which is so for every old accumulator
from `-2147479553` up, and the difference wrapped around modulo `2 ^ 32`
otherwise; `a` is at most `4095` and is the bit pattern of the word modulo
`4096`, so the mnemonic and indirection bits play no part; `pc_` and
`memory_` are unchanged. -/
theorem DoSUB_spec (it : Interpreter) (addr target : BitString) (L : Nat)
    (w : OneMemoryWord) (hL : GetTargetLocation it addr target = .ok L)
    (hw : it.memory_[L]? = some w) :
    DoSUB it addr target =
      .ok { pc_ := it.pc_,
            accum_ := wrapInt32 (it.accum_ - (BitStringToDec w.GetAddressBits : Nat)),
            memory_ := it.memory_ } ∧
    BitStringToDec w.GetAddressBits ≤ 4095 ∧
    BitStringToDec w.GetAddressBits = BitStringToDec w.GetBitPattern % 4096 ∧
    (-2147483648 ≤ it.accum_ - (BitStringToDec w.GetAddressBits : Nat) →
      it.accum_ - (BitStringToDec w.GetAddressBits : Nat) ≤ 2147483647 →
      DoSUB it addr target =
        .ok { pc_ := it.pc_,
              accum_ := it.accum_ - (BitStringToDec w.GetAddressBits : Nat),
              memory_ := it.memory_ }) ∧
    (-2147479553 ≤ it.accum_ → it.accum_ ≤ 2147483647 →
      DoSUB it addr target =
        .ok { pc_ := it.pc_,
              accum_ := it.accum_ - (BitStringToDec w.GetAddressBits : Nat),
              memory_ := it.memory_ }) := by
  have hlt := BitStringToDec_GetAddressBits_lt w
  have hA : DoSUB it addr target =
      .ok { pc_ := it.pc_,
            accum_ := wrapInt32 (it.accum_ - (BitStringToDec w.GetAddressBits : Nat)),
            memory_ := it.memory_ } := by
    simp [DoSUB, hL, memoryAt, hw]
  refine ⟨hA, by omega, BitStringToDec_GetAddressBits w, ?_, ?_⟩
  · intro h1 h2
    rw [hA, wrapInt32_of_range _ h1 h2]
  · intro h1 h2
    rw [hA, wrapInt32_of_range _ (by omega) (by omega)]

theorem DoSUB_spec_witness :
    GetTargetLocation ⟨2, 40000, [word 3, word 0xF007, word 0x2001]⟩ [false] (natToBits 1 12)
      = .ok 1 ∧
    (⟨2, 40000, [word 3, word 0xF007, word 0x2001]⟩ : Interpreter).memory_[1]?
      = some (word 0xF007) ∧
    (-2147479553 : Int) ≤ (⟨2, 40000, [word 3, word 0xF007, word 0x2001]⟩ : Interpreter).accum_ ∧
    (⟨2, 40000, [word 3, word 0xF007, word 0x2001]⟩ : Interpreter).accum_ ≤ 2147483647 ∧
    DoSUB ⟨2, 40000, [word 3, word 0xF007, word 0x2001]⟩ [false] (natToBits 1 12)
      = .ok ⟨2, 39993, [word 3, word 0xF007, word 0x2001]⟩ :=
  ⟨by rfl, by rfl, by decide, by decide,
   (DoSUB_spec ⟨2, 40000, [word 3, word 0xF007, word 0x2001]⟩ [false] (natToBits 1 12) 1
     (word 0xF007) (by rfl) (by rfl)).2.2.2.2 (by decide) (by decide)⟩

/-- C14: when the address of an `LD` resolves to a location `L` that holds a
word, `DoLD` ends normally and leaves the accumulator equal to the unsigned
value of the 12-bit address field of that word, whatever the accumulator held
before; that value lies in `0..4095`; `pc_` and `memory_` are unchanged. -/
theorem DoLD_spec (it : Interpreter) (addr target : BitString) (L : Nat)
    (w : OneMemoryWord) (hL : GetTargetLocation it addr target = .ok L)
    (hw : it.memory_[L]? = some w) :
    DoLD it addr target =
      .ok { pc_ := it.pc_,
            accum_ := (BitStringToDec w.GetAddressBits : Nat),
            memory_ := it.memory_ } ∧
    (0 : Int) ≤ (BitStringToDec w.GetAddressBits : Nat) ∧
    ((BitStringToDec w.GetAddressBits : Nat) : Int) ≤ 4095 := by
  have hlt := BitStringToDec_GetAddressBits_lt w
  refine ⟨?_, by omega, by omega⟩
  simp [DoLD, hL, memoryAt, hw]

theorem DoLD_spec_witness :
    GetTargetLocation ⟨2, -7, [word 3, word 0xF007, word 0xA001]⟩ [false] (natToBits 1 12)
      = .ok 1 ∧
    (⟨2, -7, [word 3, word 0xF007, word 0xA001]⟩ : Interpreter).memory_[1]?
      = some (word 0xF007) ∧
    DoLD ⟨2, -7, [word 3, word 0xF007, word 0xA001]⟩ [false] (natToBits 1 12)
      = .ok ⟨2, 7, [word 3, word 0xF007, word 0xA001]⟩ :=
  ⟨by rfl, by rfl,
   (DoLD_spec ⟨2, -7, [word 3, word 0xF007, word 0xA001]⟩ [false] (natToBits 1 12) 1
     (word 0xF007) (by rfl) (by rfl)).1⟩

/-- C15: when the address of an `AND` resolves to a location `L` that holds a
word, `DoAND` ends normally and leaves the accumulator equal to the bitwise
AND of the old stored accumulator, taken as it is, and the unsigned value of
the whole bit pattern of that word; the result lies in `0..65535` even when
the old accumulator is negative; `pc_` and `memory_` are unchanged. -/
theorem DoAND_spec (it : Interpreter) (addr target : BitString) (L : Nat)
    (w : OneMemoryWord) (hL : GetTargetLocation it addr target = .ok L)
    (hw : it.memory_[L]? = some w) :
    DoAND it addr target =
      .ok { pc_ := it.pc_,
            accum_ := Int.land it.accum_ (BitStringToDec w.GetBitPattern : Nat),
            memory_ := it.memory_ } ∧
    0 ≤ Int.land it.accum_ (BitStringToDec w.GetBitPattern : Nat) ∧
    Int.land it.accum_ (BitStringToDec w.GetBitPattern : Nat) ≤ 65535 := by
  have hb := land_natCast_bound it.accum_ _ (BitStringToDec_GetBitPattern_lt w)
  refine ⟨?_, hb.1, by omega⟩
  simp [DoAND, hL, memoryAt, hw]

theorem DoAND_spec_witness :
    GetTargetLocation ⟨2, -2, [word 3, word 0xF007, word 0x6001]⟩ [false] (natToBits 1 12)
      = .ok 1 ∧
    (⟨2, -2, [word 3, word 0xF007, word 0x6001]⟩ : Interpreter).memory_[1]?
      = some (word 0xF007) ∧
    DoAND ⟨2, -2, [word 3, word 0xF007, word 0x6001]⟩ [false] (natToBits 1 12)
      = .ok ⟨2, 0xF006, [word 3, word 0xF007, word 0x6001]⟩ :=
  ⟨by rfl, by rfl, by
    have hb : BitStringToDec (word 0xF007).GetBitPattern = 61447 := by rfl
    have hl : Nat.ldiff 61447 1 = 61446 := by
      unfold Nat.ldiff
      rw [Nat.bitwise]
      simp [Nat.bitwise]
    have hland : Int.land (-2) ((61447 : Nat) : Int) = 61446 := by
      show ((Nat.ldiff 61447 1 : Nat) : Int) = 61446
      rw [hl]
      rfl
    have h := (DoAND_spec ⟨2, -2, [word 3, word 0xF007, word 0x6001]⟩ [false]
      (natToBits 1 12) 1 (word 0xF007) (by rfl) (by rfl)).1
    rw [hb, hland] at h
    exact h⟩

/-! ## `STC` -/

theorem TwosComplementInteger_emod (x : Int) :
    TwosComplementInteger x % 65536 = x % 65536 := by
  unfold TwosComplementInteger
  split <;> omega

theorem ofValue_TwosComplementInteger (x : Int) :
    OneMemoryWord.ofValue (TwosComplementInteger x) = OneMemoryWord.ofValue x := by
  have hp : ((2 : Int) ^ 16) = 65536 := by norm_num
  simp only [OneMemoryWord.ofValue, DecToBitString, hp, TwosComplementInteger_emod]

/-- C12: when the address of an `STC` resolves to a location `L` inside the
memory, `DoSTC` ends normally; afterwards the word at `L` is the sixteen-bit
pattern that encodes `TwosComplementInteger` of the old accumulator, whose
unsigned value is the old accumulator modulo `65536`; the accumulator is `0`;
every other cell, the length of the memory and `pc_` are unchanged. -/
theorem DoSTC_spec (it : Interpreter) (addr target : BitString) (L : Nat)
    (hL : GetTargetLocation it addr target = .ok L) (hin : L < it.memory_.length) :
    DoSTC it addr target =
      .ok { pc_ := it.pc_, accum_ := 0,
            memory_ := it.memory_.set L (OneMemoryWord.ofValue it.accum_) } ∧
    (it.memory_.set L (OneMemoryWord.ofValue it.accum_))[L]?
      = some (OneMemoryWord.ofValue (TwosComplementInteger it.accum_)) ∧
    ((BitStringToDec (OneMemoryWord.ofValue (TwosComplementInteger it.accum_)).GetBitPattern
        : Nat) : Int) = it.accum_ % 65536 ∧
    (∀ i : Nat, i ≠ L →
      (it.memory_.set L (OneMemoryWord.ofValue it.accum_))[i]? = it.memory_[i]?) ∧
    (it.memory_.set L (OneMemoryWord.ofValue it.accum_)).length = it.memory_.length := by
  refine ⟨?_, ?_, ?_, ?_, ?_⟩
  · simp [DoSTC, hL, hin]
  · rw [ofValue_TwosComplementInteger]
    simp [hin]
  · rw [ofValue_TwosComplementInteger]
    exact BitStringToDec_ofValue it.accum_
  · intro i hi
    simp [List.getElem?_set, Ne.symm hi]
  · simp

theorem DoSTC_spec_witness :
    GetTargetLocation ⟨1, 40000, [word 5, word 0x4000, word 7]⟩ [false] (natToBits 0 12)
      = .ok 0 ∧
    0 < (⟨1, 40000, [word 5, word 0x4000, word 7]⟩ : Interpreter).memory_.length ∧
    DoSTC ⟨1, 40000, [word 5, word 0x4000, word 7]⟩ [false] (natToBits 0 12)
      = .ok ⟨1, 0, [word 40000, word 0x4000, word 7]⟩ ∧
    TwosComplementInteger 40000 = -25536 ∧
    OneMemoryWord.ofValue (-25536) = word 40000 :=
  ⟨by rfl, by decide,
   (DoSTC_spec ⟨1, 40000, [word 5, word 0x4000, word 7]⟩ [false] (natToBits 0 12) 0
     (by rfl) (by decide)).1,
   by decide, by rfl⟩

/-- C13: when a direct-mode `STC` resolves to a location `L` inside the memory
and the `LD` that follows it, at whatever `pc_`, resolves in direct mode to
the same `L`, then `DoSTC` leaves the accumulator at `0` and the `DoLD` after
it leaves the accumulator equal to the old accumulator modulo `4096`, the low
twelve bits of its sixteen-bit pattern. -/
theorem DoSTC_then_DoLD (it : Interpreter) (target target1 : BitString) (pc1 L : Nat)
    (hL : GetTargetLocation it [false] target = .ok L) (hin : L < it.memory_.length)
    (hL1 : GetTargetLocation
      { pc_ := pc1, accum_ := 0,
        memory_ := it.memory_.set L (OneMemoryWord.ofValue it.accum_) } [false] target1
      = .ok L) :
    DoSTC it [false] target =
      .ok { pc_ := it.pc_, accum_ := 0,
            memory_ := it.memory_.set L (OneMemoryWord.ofValue it.accum_) } ∧
    DoLD { pc_ := pc1, accum_ := 0,
           memory_ := it.memory_.set L (OneMemoryWord.ofValue it.accum_) } [false] target1 =
      .ok { pc_ := pc1, accum_ := it.accum_ % 4096,
            memory_ := it.memory_.set L (OneMemoryWord.ofValue it.accum_) } := by
  constructor
  · simp [DoSTC, hL, hin]
  · have hw : (it.memory_.set L (OneMemoryWord.ofValue it.accum_))[L]?
        = some (OneMemoryWord.ofValue it.accum_) := by simp [hin]
    simp only [DoLD, hL1, memoryAt, hw, BitStringToDec_ofValue_address]

theorem DoSTC_then_DoLD_witness :
    GetTargetLocation ⟨1, -3, [word 5, word 0x4000, word 0xA000]⟩ [false] (natToBits 0 12)
      = .ok 0 ∧
    0 < (⟨1, -3, [word 5, word 0x4000, word 0xA000]⟩ : Interpreter).memory_.length ∧
    GetTargetLocation ⟨2, 0, [word 0xFFFD, word 0x4000, word 0xA000]⟩ [false]
      (natToBits 0 12) = .ok 0 ∧
    DoSTC ⟨1, -3, [word 5, word 0x4000, word 0xA000]⟩ [false] (natToBits 0 12)
      = .ok ⟨1, 0, [word 0xFFFD, word 0x4000, word 0xA000]⟩ ∧
    DoLD ⟨2, 0, [word 0xFFFD, word 0x4000, word 0xA000]⟩ [false] (natToBits 0 12)
      = .ok ⟨2, 4093, [word 0xFFFD, word 0x4000, word 0xA000]⟩ :=
  ⟨by rfl, by decide, by rfl,
   DoSTC_then_DoLD ⟨1, -3, [word 5, word 0x4000, word 0xA000]⟩ (natToBits 0 12)
     (natToBits 0 12) 2 0 (by rfl) (by decide) (by rfl)⟩

/-! ## The extended code: `STP`, `RD` and unknown sub-codes -/

theorem GetMnemonicBits_length (w : OneMemoryWord) : w.GetMnemonicBits.length = 3 := by
  simp [OneMemoryWord.GetMnemonicBits, w.wf]

theorem Execute_extended (cfg : Config) (m : Machine) (w : OneMemoryWord)
    (hcode : cfg.code_to_mnemonic_ w.GetMnemonicBits = "EEE") :
    Execute cfg m w =
      if w.GetAddressBits.drop 9 = [false, true, false] then
        .ok { m with interp := DoSTP cfg m.interp }
      else if w.GetAddressBits.drop 9 = [false, false, true] then DoRD cfg m
      else if w.GetAddressBits.drop 9 = [false, true, true] then .ok (DoWRT m)
      else .ok m := by
  simp [Execute, GetMnemonicBits_length, hcode]

theorem InterpretStep_of_Execute_ok (cfg : Config) (m m1 : Machine) (w : OneMemoryWord)
    (hpc : m.interp.pc_ < m.interp.memory_.length) (hmax : m.interp.pc_ ≤ cfg.kMaxMemory)
    (hw : m.interp.memory_[m.interp.pc_]? = some w) (hx : Execute cfg m w = .ok m1) :
    InterpretStep cfg m =
      .ok (true, { m1 with interp := { m1.interp with pc_ := m1.interp.pc_ + 1 } }) := by
  have hn : ¬ m.interp.pc_ > cfg.kMaxMemory := by omega
  simp [InterpretStep, hpc, hn, memoryAt, hw, hx]

theorem InterpretStep_of_Execute_error (cfg : Config) (m : Machine) (w : OneMemoryWord)
    (e : Fatal)
    (hpc : m.interp.pc_ < m.interp.memory_.length) (hmax : m.interp.pc_ ≤ cfg.kMaxMemory)
    (hw : m.interp.memory_[m.interp.pc_]? = some w) (hx : Execute cfg m w = .error e) :
    InterpretStep cfg m = .error e := by
  have hn : ¬ m.interp.pc_ > cfg.kMaxMemory := by omega
  simp [InterpretStep, hpc, hn, memoryAt, hw, hx]

/-- C16: in a state where the loop executes an `STP` (extended code, low
address bits `010`), that pass leaves the accumulator, the memory and both
streams as they were and sets `pc_` to `kPCForStop + 1`. If the memory has at
most `kPCForStop + 1` words, the next pass ends the loop without executing
anything; if it has more and `kPCForStop` is at least `kMaxMemory`, the next
pass ends the process with `exit(1)` before executing anything. A program
that consists of one `STP` word always ends after that single instruction. -/
theorem STP_ends_the_loop (cfg : Config) (m : Machine) (w : OneMemoryWord)
    (hpc : m.interp.pc_ < m.interp.memory_.length) (hmax : m.interp.pc_ ≤ cfg.kMaxMemory)
    (hw : m.interp.memory_[m.interp.pc_]? = some w)
    (hcode : cfg.code_to_mnemonic_ w.GetMnemonicBits = "EEE")
    (hbits : w.GetAddressBits.drop 9 = [false, true, false]) :
    InterpretStep cfg m =
      .ok (true, { m with interp := { m.interp with pc_ := cfg.kPCForStop + 1 } }) ∧
    (m.interp.memory_.length ≤ cfg.kPCForStop + 1 →
      InterpretStep cfg { m with interp := { m.interp with pc_ := cfg.kPCForStop + 1 } }
        = .ok (false, { m with interp := { m.interp with pc_ := cfg.kPCForStop + 1 } }) ∧
      ∀ fuel : Nat, InterpretLoop cfg (fuel + 2) m
        = .ok (some { m with interp := { m.interp with pc_ := cfg.kPCForStop + 1 } })) ∧
    (cfg.kPCForStop + 1 < m.interp.memory_.length → cfg.kMaxMemory ≤ cfg.kPCForStop →
      InterpretStep cfg { m with interp := { m.interp with pc_ := cfg.kPCForStop + 1 } }
        = .error .exit1 ∧
      ∀ fuel : Nat, InterpretLoop cfg (fuel + 2) m = .error .exit1) ∧
    (m.interp.memory_.length = 1 →
      ∀ fuel : Nat, InterpretLoop cfg (fuel + 2) m
        = .ok (some { m with interp := { m.interp with pc_ := cfg.kPCForStop + 1 } })) := by
  have hx : Execute cfg m w = .ok { m with interp := DoSTP cfg m.interp } := by
    rw [Execute_extended cfg m w hcode, if_pos hbits]
  have hstep := InterpretStep_of_Execute_ok cfg m _ w hpc hmax hw hx
  have hstep1 : InterpretStep cfg m =
      .ok (true, { m with interp := { m.interp with pc_ := cfg.kPCForStop + 1 } }) := by
    rw [hstep]
    rfl
  have hhalt : m.interp.memory_.length ≤ cfg.kPCForStop + 1 →
      InterpretStep cfg { m with interp := { m.interp with pc_ := cfg.kPCForStop + 1 } }
        = .ok (false, { m with interp := { m.interp with pc_ := cfg.kPCForStop + 1 } }) ∧
      ∀ fuel : Nat, InterpretLoop cfg (fuel + 2) m
        = .ok (some { m with interp := { m.interp with pc_ := cfg.kPCForStop + 1 } }) := by
    intro hlen
    have hn : ¬ cfg.kPCForStop + 1 < m.interp.memory_.length := by omega
    have h2 : InterpretStep cfg { m with interp := { m.interp with pc_ := cfg.kPCForStop + 1 } }
        = .ok (false, { m with interp := { m.interp with pc_ := cfg.kPCForStop + 1 } }) := by
      simp [InterpretStep, hn]
    refine ⟨h2, ?_⟩
    intro fuel
    simp only [InterpretLoop, hstep1, h2]
  refine ⟨hstep1, hhalt, ?_, ?_⟩
  · intro hlen hstop
    have hgt : cfg.kPCForStop + 1 > cfg.kMaxMemory := by omega
    have h2 : InterpretStep cfg { m with interp := { m.interp with pc_ := cfg.kPCForStop + 1 } }
        = .error .exit1 := by
      simp [InterpretStep, hlen, hgt]
    refine ⟨h2, ?_⟩
    intro fuel
    simp only [InterpretLoop, hstep1, h2]
  · intro hone
    exact (hhalt (by omega)).2

theorem STP_ends_the_loop_witness :
    (⟨⟨0, 7, [word 0xE002]⟩, ["+0001"], []⟩ : Machine).interp.pc_
      < (⟨⟨0, 7, [word 0xE002]⟩, ["+0001"], []⟩ : Machine).interp.memory_.length ∧
    (⟨⟨0, 7, [word 0xE002]⟩, ["+0001"], []⟩ : Machine).interp.pc_ ≤ pullet16.kMaxMemory ∧
    pullet16.code_to_mnemonic_ (word 0xE002).GetMnemonicBits = "EEE" ∧
    (word 0xE002).GetAddressBits.drop 9 = [false, true, false] ∧
    InterpretStep pullet16 ⟨⟨0, 7, [word 0xE002]⟩, ["+0001"], []⟩
      = .ok (true, ⟨⟨4097, 7, [word 0xE002]⟩, ["+0001"], []⟩) ∧
    InterpretLoop pullet16 2 ⟨⟨0, 7, [word 0xE002]⟩, ["+0001"], []⟩
      = .ok (some ⟨⟨4097, 7, [word 0xE002]⟩, ["+0001"], []⟩) :=
  ⟨by decide, by decide, by rfl, by rfl,
   (STP_ends_the_loop pullet16 ⟨⟨0, 7, [word 0xE002]⟩, ["+0001"], []⟩ (word 0xE002)
     (by decide) (by decide) (by rfl) (by rfl) (by rfl)).1,
   (STP_ends_the_loop pullet16 ⟨⟨0, 7, [word 0xE002]⟩, ["+0001"], []⟩ (word 0xE002)
     (by decide) (by decide) (by rfl) (by rfl) (by rfl)).2.2.2 (by rfl) 0⟩

/-- C17: in a state where an `RD` (extended code, low address bits `001`) is
executed while the data source has no line left, `DoRD` and `Execute` end
with `exit(1)`, and so do the pass of the loop that fetched the word and the
whole loop: no state is handed on, so nothing is modified and no further
instruction is executed. -/
theorem RD_without_data_is_fatal (cfg : Config) (m : Machine) (w : OneMemoryWord)
    (hcode : cfg.code_to_mnemonic_ w.GetMnemonicBits = "EEE")
    (hbits : w.GetAddressBits.drop 9 = [false, false, true])
    (hdata : m.data_scanner = []) :
    DoRD cfg m = .error .exit1 ∧
    Execute cfg m w = .error .exit1 ∧
    (m.interp.pc_ < m.interp.memory_.length → m.interp.pc_ ≤ cfg.kMaxMemory →
      m.interp.memory_[m.interp.pc_]? = some w →
      InterpretStep cfg m = .error .exit1 ∧
      ∀ fuel : Nat, InterpretLoop cfg (fuel + 1) m = .error .exit1) := by
  have hrd : DoRD cfg m = .error .exit1 := by
    simp [DoRD, hdata]
  have hne : ¬ w.GetAddressBits.drop 9 = [false, true, false] := by
    rw [hbits]
    decide
  have hx : Execute cfg m w = .error .exit1 := by
    rw [Execute_extended cfg m w hcode, if_neg hne, if_pos hbits, hrd]
  refine ⟨hrd, hx, ?_⟩
  intro hpc hmax hw
  have hstep := InterpretStep_of_Execute_error cfg m w _ hpc hmax hw hx
  refine ⟨hstep, ?_⟩
  intro fuel
  simp only [InterpretLoop, hstep]

theorem RD_without_data_is_fatal_witness :
    pullet16.code_to_mnemonic_ (word 0xE001).GetMnemonicBits = "EEE" ∧
    (word 0xE001).GetAddressBits.drop 9 = [false, false, true] ∧
    (⟨⟨0, 7, [word 0xE001, word 0xE002]⟩, [], []⟩ : Machine).data_scanner = [] ∧
    Execute pullet16 ⟨⟨0, 7, [word 0xE001, word 0xE002]⟩, [], []⟩ (word 0xE001)
      = .error .exit1 ∧
    InterpretLoop pullet16 1 ⟨⟨0, 7, [word 0xE001, word 0xE002]⟩, [], []⟩ = .error .exit1 :=
  ⟨by rfl, by rfl, by rfl,
   (RD_without_data_is_fatal pullet16 ⟨⟨0, 7, [word 0xE001, word 0xE002]⟩, [], []⟩
     (word 0xE001) (by rfl) (by rfl) (by rfl)).2.1,
   ((RD_without_data_is_fatal pullet16 ⟨⟨0, 7, [word 0xE001, word 0xE002]⟩, [], []⟩
     (word 0xE001) (by rfl) (by rfl) (by rfl)).2.2 (by decide) (by decide) (by rfl)).2 0⟩

/-- C20: for a word with the extended code whose low three address bits are
none of `010`, `001` and `011`, `Execute` returns the machine as it was: the
accumulator, the memory, the data source and the output are unchanged and no
error is raised; the pass of the loop that fetched it only adds one to
`pc_`. -/
theorem Execute_unknown_extended (cfg : Config) (m : Machine) (w : OneMemoryWord)
    (hcode : cfg.code_to_mnemonic_ w.GetMnemonicBits = "EEE")
    (h010 : w.GetAddressBits.drop 9 ≠ [false, true, false])
    (h001 : w.GetAddressBits.drop 9 ≠ [false, false, true])
    (h011 : w.GetAddressBits.drop 9 ≠ [false, true, true]) :
    Execute cfg m w = .ok m ∧
    (m.interp.pc_ < m.interp.memory_.length → m.interp.pc_ ≤ cfg.kMaxMemory →
      m.interp.memory_[m.interp.pc_]? = some w →
      InterpretStep cfg m =
        .ok (true, { m with interp := { m.interp with pc_ := m.interp.pc_ + 1 } })) := by
  have hx : Execute cfg m w = .ok m := by
    rw [Execute_extended cfg m w hcode, if_neg h010, if_neg h001, if_neg h011]
  refine ⟨hx, ?_⟩
  intro hpc hmax hw
  exact InterpretStep_of_Execute_ok cfg m m w hpc hmax hw hx

theorem Execute_unknown_extended_witness :
    pullet16.code_to_mnemonic_ (word 0xE007).GetMnemonicBits = "EEE" ∧
    (word 0xE007).GetAddressBits.drop 9 ≠ [false, true, false] ∧
    (word 0xE007).GetAddressBits.drop 9 ≠ [false, false, true] ∧
    (word 0xE007).GetAddressBits.drop 9 ≠ [false, true, true] ∧
    Execute pullet16 ⟨⟨0, 7, [word 0xE007]⟩, ["+0001"], []⟩ (word 0xE007)
      = .ok ⟨⟨0, 7, [word 0xE007]⟩, ["+0001"], []⟩ ∧
    InterpretStep pullet16 ⟨⟨0, 7, [word 0xE007]⟩, ["+0001"], []⟩
      = .ok (true, ⟨⟨1, 7, [word 0xE007]⟩, ["+0001"], []⟩) :=
  ⟨by rfl, by decide, by decide, by decide,
   (Execute_unknown_extended pullet16 ⟨⟨0, 7, [word 0xE007]⟩, ["+0001"], []⟩ (word 0xE007)
     (by rfl) (by decide) (by decide) (by decide)).1,
   (Execute_unknown_extended pullet16 ⟨⟨0, 7, [word 0xE007]⟩, ["+0001"], []⟩ (word 0xE007)
     (by rfl) (by decide) (by decide) (by decide)).2 (by decide) (by decide) (by rfl)⟩

/-! ## Well-formed tokens and `RD` -/

theorem isUpperHexDigit_toNat (c : Char) (h : isUpperHexDigit c = true) :
    (48 ≤ c.toNat ∧ c.toNat ≤ 57) ∨ (65 ≤ c.toNat ∧ c.toNat ≤ 70) := by
  simp only [isUpperHexDigit, decide_eq_true_eq] at h
  rcases h with h | h
  · exact Or.inl ⟨h.1, h.2⟩
  · exact Or.inr ⟨h.1, h.2⟩

theorem isUpperHexDigit_ne (c k : Char) (h : isUpperHexDigit c = true)
    (hk : isUpperHexDigit k = false) : c ≠ k := by
  intro hck
  rw [hck, hk] at h
  cases h

theorem hexDigitValue_upper (c : Char) (h : isUpperHexDigit c = true) :
    hexDigitValue c = some (upperHexDigitValue c) ∧ upperHexDigitValue c ≤ 15 := by
  have hn := isUpperHexDigit_toNat c h
  have h0 : '0'.toNat = 48 := rfl
  have hA : 'A'.toNat = 65 := rfl
  unfold hexDigitValue upperHexDigitValue
  by_cases hd : '0' ≤ c ∧ c ≤ '9'
  · have hb : c.toNat ≤ 57 := hd.2
    simp only [if_pos hd, h0, true_and]
    omega
  · have hup : 'A' ≤ c ∧ c ≤ 'F' := by
      simp only [isUpperHexDigit, decide_eq_true_eq] at h
      rcases h with h | h
      · exact absurd h hd
      · exact h
    have hlow : ¬ ('a' ≤ c ∧ c ≤ 'f') := by
      intro hl
      have h1 : 97 ≤ c.toNat := hl.1
      have h2 : c.toNat ≤ 70 := hup.2
      omega
    have hb : c.toNat ≤ 70 := hup.2
    simp only [if_neg hd, if_neg hlow, if_pos hup, hA, true_and]
    omega

theorem isspace_upper (c : Char) (h : isUpperHexDigit c = true) : isspace c = false := by
  have h1 := isUpperHexDigit_ne c ' ' h (by decide)
  have h2 := isUpperHexDigit_ne c '\t' h (by decide)
  have h3 := isUpperHexDigit_ne c '\n' h (by decide)
  have h4 := isUpperHexDigit_ne c '\x0b' h (by decide)
  have h5 := isUpperHexDigit_ne c '\x0c' h (by decide)
  have h6 := isUpperHexDigit_ne c '\r' h (by decide)
  simp [isspace, h1, h2, h3, h4, h5, h6]

theorem stoiSign_upper (d : Char) (r : List Char) (h : isUpperHexDigit d = true) :
    stoiSign (d :: r) = (false, d :: r) := by
  have hm := isUpperHexDigit_ne d '-' h (by decide)
  have hp := isUpperHexDigit_ne d '+' h (by decide)
  unfold stoiSign
  split
  · rename_i heq
    injection heq with h1 h2
    exact absurd h1 hm
  · rename_i heq
    injection heq with h1 h2
    exact absurd h1 hp
  · rfl

theorem stoiPrefix_upper (d1 d2 : Char) (r : List Char) (h : isUpperHexDigit d2 = true) :
    stoiPrefix (d1 :: d2 :: r) = d1 :: d2 :: r := by
  have hx := isUpperHexDigit_ne d2 'x' h (by decide)
  have hX := isUpperHexDigit_ne d2 'X' h (by decide)
  unfold stoiPrefix
  split
  · rename_i x d r1 heq
    injection heq with h1 h2
    injection h2 with h3 h4
    have hne : ¬ ((x = 'x' ∨ x = 'X') ∧ (hexDigitValue d).isSome = true) := by
      rintro ⟨hx1 | hx1, _⟩
      · exact hx (h3.trans hx1)
      · exact hX (h3.trans hx1)
    rw [if_neg hne]
  · rfl

theorem stoi16_upper4 (d1 d2 d3 d4 : Char) (h1 : isUpperHexDigit d1 = true)
    (h2 : isUpperHexDigit d2 = true) (h3 : isUpperHexDigit d3 = true)
    (h4 : isUpperHexDigit d4 = true) :
    stoi16 [d1, d2, d3, d4] = .ok (tokenMagnitude d1 d2 d3 d4 : Nat) ∧
    tokenMagnitude d1 d2 d3 d4 ≤ 65535 := by
  have v1 := hexDigitValue_upper d1 h1
  have v2 := hexDigitValue_upper d2 h2
  have v3 := hexDigitValue_upper d3 h3
  have v4 := hexDigitValue_upper d4 h4
  have hle : tokenMagnitude d1 d2 d3 d4 ≤ 65535 := by
    unfold tokenMagnitude
    omega
  refine ⟨?_, hle⟩
  have hdrop : [d1, d2, d3, d4].dropWhile isspace = [d1, d2, d3, d4] := by
    simp [List.dropWhile, isspace_upper d1 h1]
  have htake : [d1, d2, d3, d4].takeWhile (fun c => (hexDigitValue c).isSome)
      = [d1, d2, d3, d4] := by
    simp [List.takeWhile, v1.1, v2.1, v3.1, v4.1]
  have hmag : stoiMagnitude [d1, d2, d3, d4] = tokenMagnitude d1 d2 d3 d4 := by
    simp only [stoiMagnitude, List.foldl, v1.1, v2.1, v3.1, v4.1, Option.getD_some,
      tokenMagnitude]
    omega
  simp only [stoi16, hdrop, stoiSign_upper d1 _ h1, stoiPrefix_upper d1 d2 _ h2, htake, hmag]
  simp
  omega

theorem Init_wellformed (cfg : Config) (line : String) (sg d1 d2 d3 d4 : Char)
    (hline : line.data = [sg, d1, d2, d3, d4])
    (hwf : isWellFormedToken [sg, d1, d2, d3, d4] = true) :
    Hex.Init cfg line =
      .ok { is_invalid_ := cfg.hex_is_invalid_,
            is_negative_ := decide (sg = '-'),
            value_ := if sg = '-' then -(tokenMagnitude d1 d2 d3 d4 : Int)
                      else (tokenMagnitude d1 d2 d3 d4 : Int),
            text_ := [sg, d1, d2, d3, d4] } := by
  simp only [isWellFormedToken, Bool.and_eq_true, Bool.or_eq_true, decide_eq_true_eq] at hwf
  obtain ⟨⟨⟨⟨hsg, h1⟩, h2⟩, h3⟩, h4⟩ := hwf
  have hs := (stoi16_upper4 d1 d2 d3 d4 h1 h2 h3 h4).1
  rcases hsg with hsg | hsg
  · subst hsg
    simp [Hex.Init, Hex.ParseHexOperand, hline, hs]
  · subst hsg
    simp [Hex.Init, Hex.ParseHexOperand, hline, hs]

/-- C18: when `RD` is executed and the next data line is a well-formed token,
a sign `+` or `-` followed by four uppercase hexadecimal digits of magnitude
`m`, then `DoRD` ends normally, removes exactly that line from the data
source and sets the accumulator to `TwosComplementInteger s`, where `s` is
`m` for `+` and `-m` for `-`; `m` is at most `65535`; `pc_`, the memory and
the output are unchanged; `Execute` of an `RD` word does the same. -/
theorem DoRD_wellformed (cfg : Config) (m : Machine) (line : String) (rest : List String)
    (sg d1 d2 d3 d4 : Char)
    (hdata : m.data_scanner = line :: rest)
    (hline : line.data = [sg, d1, d2, d3, d4])
    (hwf : isWellFormedToken [sg, d1, d2, d3, d4] = true) :
    DoRD cfg m =
      .ok { interp :=
              { pc_ := m.interp.pc_,
                accum_ := TwosComplementInteger
                  (if sg = '-' then -(tokenMagnitude d1 d2 d3 d4 : Int)
                   else (tokenMagnitude d1 d2 d3 d4 : Int)),
                memory_ := m.interp.memory_ },
            data_scanner := rest,
            out_stream := m.out_stream } ∧
    tokenMagnitude d1 d2 d3 d4 ≤ 65535 ∧
    (∀ w : OneMemoryWord, cfg.code_to_mnemonic_ w.GetMnemonicBits = "EEE" →
      w.GetAddressBits.drop 9 = [false, false, true] →
      Execute cfg m w = DoRD cfg m) := by
  have hle : tokenMagnitude d1 d2 d3 d4 ≤ 65535 := by
    simp only [isWellFormedToken, Bool.and_eq_true] at hwf
    obtain ⟨⟨⟨⟨_, h1⟩, h2⟩, h3⟩, h4⟩ := hwf
    exact (stoi16_upper4 d1 d2 d3 d4 h1 h2 h3 h4).2
  refine ⟨?_, hle, ?_⟩
  · simp [DoRD, hdata, Init_wellformed cfg line sg d1 d2 d3 d4 hline hwf, Hex.GetValue]
  · intro w hcode hbits
    have hne : ¬ w.GetAddressBits.drop 9 = [false, true, false] := by
      rw [hbits]
      decide
    rw [Execute_extended cfg m w hcode, if_neg hne, if_pos hbits]

theorem DoRD_wellformed_witness :
    (⟨⟨0, 7, [word 0xE001]⟩, ["-00FF", "+0001"], [⟨1, []⟩]⟩ : Machine).data_scanner
      = "-00FF" :: ["+0001"] ∧
    "-00FF".data = ['-', '0', '0', 'F', 'F'] ∧
    isWellFormedToken ['-', '0', '0', 'F', 'F'] = true ∧
    tokenMagnitude '0' '0' 'F' 'F' = 255 ∧
    DoRD pullet16 ⟨⟨0, 7, [word 0xE001]⟩, ["-00FF", "+0001"], [⟨1, []⟩]⟩
      = .ok ⟨⟨0, -255, [word 0xE001]⟩, ["+0001"], [⟨1, []⟩]⟩ :=
  ⟨by rfl, by rfl, by decide, by decide,
   (DoRD_wellformed pullet16 ⟨⟨0, 7, [word 0xE001]⟩, ["-00FF", "+0001"], [⟨1, []⟩]⟩
     "-00FF" ["+0001"] '-' '0' '0' 'F' 'F' (by rfl) (by rfl) (by decide)).1⟩

/-! ## What `ParseHexOperand` checks -/

/-- C19: whatever the flags hold before the call, `ParseHexOperand` never
looks at the digits to set the error flag: for the token `+12G4`, with a
character that is no hexadecimal digit, and for `+00ab`, with lowercase
letters, it ends with `HasAnError` exactly as for the well-formed `+0012`,
having read the values `18` and `171`; for `+GGGG` it does not complete,
because `std::stoi` throws; only a wrong sign character sets the flag. -/
theorem ParseHexOperand_ignores_digits (cfg : Config) :
    isWellFormedToken "+12G4".data = false ∧
    (Hex.Init cfg "+12G4").map Hex.HasAnError = .ok cfg.hex_is_invalid_ ∧
    (Hex.Init cfg "+12G4").map Hex.GetValue = .ok 18 ∧
    isWellFormedToken "+00ab".data = false ∧
    (Hex.Init cfg "+00ab").map Hex.HasAnError = .ok cfg.hex_is_invalid_ ∧
    (Hex.Init cfg "+00ab").map Hex.GetValue = .ok 171 ∧
    isWellFormedToken "+0012".data = true ∧
    (Hex.Init cfg "+0012").map Hex.HasAnError = .ok cfg.hex_is_invalid_ ∧
    isWellFormedToken "+GGGG".data = false ∧
    Hex.Init cfg "+GGGG" = .error .invalid_argument ∧
    isWellFormedToken "*0012".data = false ∧
    (Hex.Init cfg "*0012").map Hex.HasAnError = .ok true := by
  refine ⟨by decide, by rfl, by rfl, by decide, by rfl, by rfl, by decide, by rfl,
    by decide, by rfl, by decide, ?_⟩
  cases cfg with
  | mk kMax kStop table inv neg => cases neg <;> rfl

/-! ## `WRT` -/

/-- C21: `DoWRT` appends exactly one record to the output, made of
`TwosComplementInteger` of the accumulator and of the sixteen-bit text of the
accumulator, whose unsigned value is the accumulator modulo `65536`; the
interpreter, with its accumulator and every memory cell, and the data source
are unchanged; `Execute` of a `WRT` word (extended code, low address bits
`011`) does exactly this and raises no error. -/
theorem DoWRT_spec (cfg : Config) (m : Machine) :
    DoWRT m =
      { interp := m.interp, data_scanner := m.data_scanner,
        out_stream := m.out_stream
          ++ [⟨TwosComplementInteger m.interp.accum_, DecToBitString m.interp.accum_ 16⟩] } ∧
    (DoWRT m).out_stream.length = m.out_stream.length + 1 ∧
    (DecToBitString m.interp.accum_ 16).length = 16 ∧
    ((BitStringToDec (DecToBitString m.interp.accum_ 16) : Nat) : Int)
      = m.interp.accum_ % 65536 ∧
    (∀ w : OneMemoryWord, cfg.code_to_mnemonic_ w.GetMnemonicBits = "EEE" →
      w.GetAddressBits.drop 9 = [false, true, true] →
      Execute cfg m w = .ok (DoWRT m)) := by
  refine ⟨rfl, by simp [DoWRT], ?_, BitStringToDec_DecToBitString _, ?_⟩
  · simp [DecToBitString, natToBits_length]
  · intro w hcode hbits
    have h1 : ¬ w.GetAddressBits.drop 9 = [false, true, false] := by
      rw [hbits]
      decide
    have h2 : ¬ w.GetAddressBits.drop 9 = [false, false, true] := by
      rw [hbits]
      decide
    rw [Execute_extended cfg m w hcode, if_neg h1, if_neg h2, if_pos hbits]

theorem DoWRT_spec_witness :
    pullet16.code_to_mnemonic_ (word 0xE003).GetMnemonicBits = "EEE" ∧
    (word 0xE003).GetAddressBits.drop 9 = [false, true, true] ∧
    Execute pullet16 ⟨⟨0, 40000, [word 0xE003]⟩, ["+0001"], []⟩ (word 0xE003)
      = .ok ⟨⟨0, 40000, [word 0xE003]⟩, ["+0001"],
          [⟨-25536, (word 40000).GetBitPattern⟩]⟩ :=
  ⟨by rfl, by rfl,
   (DoWRT_spec pullet16 ⟨⟨0, 40000, [word 0xE003]⟩, ["+0001"], []⟩).2.2.2.2 (word 0xE003)
     (by rfl) (by rfl)⟩

/-! ## `ReadProgram` -/

theorem ReadProgramLoop_eq (decode : String → OneMemoryWord) (it : Interpreter)
    (lines : List String) :
    ReadProgramLoop decode it lines =
      { pc_ := it.pc_ + lines.length, accum_ := it.accum_,
        memory_ := it.memory_ ++ lines.map decode } := by
  induction lines generalizing it with
  | nil => simp [ReadProgramLoop]
  | cons line rest ih =>
    rw [ReadProgramLoop, ih]
    simp
    omega

/-- C22: applied to an interpreter whose memory is empty, `ReadProgram` ends
for every list of `n` lines, with no way of rejecting a line, and leaves a
memory of exactly `n` words, the word at each address `i < n` being the one
decoded from line `i`, in order; the accumulator is `0` (and `pc_` is `n`). -/
theorem ReadProgram_spec (decode : String → OneMemoryWord) (it : Interpreter)
    (lines : List String) (hempty : it.memory_ = []) :
    (ReadProgram decode it lines).memory_.length = lines.length ∧
    (∀ i : Nat, i < lines.length →
      (ReadProgram decode it lines).memory_[i]? = (lines[i]?).map decode) ∧
    (ReadProgram decode it lines).memory_ = lines.map decode ∧
    (ReadProgram decode it lines).accum_ = 0 ∧
    (ReadProgram decode it lines).pc_ = lines.length := by
  have h : ReadProgram decode it lines =
      { pc_ := lines.length, accum_ := 0, memory_ := lines.map decode } := by
    rw [ReadProgram, ReadProgramLoop_eq]
    simp [hempty]
  rw [h]
  refine ⟨by simp, ?_, rfl, rfl, rfl⟩
  intro i _
  simp [List.getElem?_map]

theorem ReadProgram_spec_witness :
    (⟨5, 9, []⟩ : Interpreter).memory_ = [] ∧
    ReadProgram (fun line => word line.length) ⟨5, 9, []⟩ ["0000", "11", "101"]
      = ⟨3, 0, [word 4, word 2, word 3]⟩ ∧
    (ReadProgram (fun line => word line.length) ⟨5, 9, []⟩ ["0000", "11", "101"]).memory_
      = ["0000", "11", "101"].map (fun line => word line.length) :=
  ⟨by rfl, by rfl,
   (ReadProgram_spec (fun line => word line.length) ⟨5, 9, []⟩ ["0000", "11", "101"]
     (by rfl)).2.2.1⟩

/-! ## Memory safety of address resolution -/

theorem GetIndirectFlag_cases (w : OneMemoryWord) :
    w.GetIndirectFlag = [false] ∨ w.GetIndirectFlag = [true] := by
  have hlen : w.GetIndirectFlag.length = 1 := by
    simp [OneMemoryWord.GetIndirectFlag, w.wf]
  match hf : w.GetIndirectFlag, hlen with
  | [b], _ => cases b <;> simp

theorem GetTargetLocation_direct_eq (it : Interpreter) (target : BitString) :
    GetTargetLocation it [false] target =
      .ok (if BitStringToDec target ≤ it.pc_ then BitStringToDec target else 0) := by
  by_cases h : BitStringToDec target ≤ it.pc_ <;> simp [GetTargetLocation, h]

theorem memoryAt_of_lt (memory : List OneMemoryWord) (i : Nat) (h : i < memory.length) :
    memoryAt memory i = .ok (memory.get ⟨i, h⟩) := by
  simp [memoryAt, List.getElem?_eq_getElem h]

/-- C23: in a state of the loop, where `pc_` is an index of the memory, and
for a flag that is `"0"` or `"1"`, `GetTargetLocation` always returns a
location and never throws: its indirect lookup reads an index that is at most
`pc_`. In direct mode the location is at most `pc_`, hence an index of the
memory, and `DoADD`, `DoAND`, `DoSUB`, `DoLD` and `DoSTC` in direct mode all
end normally, with no access outside the loaded memory. The flag of a memory
word is always `"0"` or `"1"`. -/
theorem GetTargetLocation_in_bounds (it : Interpreter) (addr target : BitString)
    (hpc : it.pc_ < it.memory_.length) (hflag : addr = [false] ∨ addr = [true]) :
    (∃ L, GetTargetLocation it addr target = .ok L) ∧
    (BitStringToDec target ≤ it.pc_ →
      ∃ w, memoryAt it.memory_ (BitStringToDec target) = .ok w) ∧
    (∀ L, GetTargetLocation it [false] target = .ok L →
      L ≤ it.pc_ ∧ L < it.memory_.length) ∧
    (∃ r, DoADD it [false] target = .ok r) ∧
    (∃ r, DoAND it [false] target = .ok r) ∧
    (∃ r, DoSUB it [false] target = .ok r) ∧
    (∃ r, DoLD it [false] target = .ok r) ∧
    (∃ r, DoSTC it [false] target = .ok r) ∧
    (∀ w : OneMemoryWord, w.GetIndirectFlag = [false] ∨ w.GetIndirectFlag = [true]) := by
  have hlook : BitStringToDec target ≤ it.pc_ →
      ∃ w, memoryAt it.memory_ (BitStringToDec target) = .ok w := by
    intro hle
    exact ⟨_, memoryAt_of_lt it.memory_ _ (by omega)⟩
  have hdir := GetTargetLocation_direct_eq it target
  have hL : (if BitStringToDec target ≤ it.pc_ then BitStringToDec target else 0)
      < it.memory_.length := by
    split <;> omega
  have hat := memoryAt_of_lt it.memory_ _ hL
  refine ⟨?_, hlook, ?_, ?_, ?_, ?_, ?_, ?_, GetIndirectFlag_cases⟩
  · rcases hflag with hf | hf
    · exact ⟨_, by rw [hf]; exact hdir⟩
    · subst hf
      by_cases hle : BitStringToDec target ≤ it.pc_
      · obtain ⟨w, hw⟩ := hlook hle
        exact ⟨BitStringToDec w.GetAddressBits, by simp [GetTargetLocation, hle, hw]⟩
      · exact ⟨0, by simp [GetTargetLocation, hle]⟩
  · intro L hLeq
    rw [hdir] at hLeq
    have hLe := Except.ok.inj hLeq
    subst hLe
    constructor
    · split <;> omega
    · exact hL
  · exact ⟨_, by simp only [DoADD, hdir, hat]; rfl⟩
  · exact ⟨_, by simp only [DoAND, hdir, hat]; rfl⟩
  · exact ⟨_, by simp only [DoSUB, hdir, hat]; rfl⟩
  · exact ⟨_, by simp only [DoLD, hdir, hat]; rfl⟩
  · exact ⟨_, by simp only [DoSTC, hdir, if_pos hL]; rfl⟩

theorem GetTargetLocation_in_bounds_witness :
    (⟨1, 0, [word 3, word 0x8FFF]⟩ : Interpreter).pc_
      < (⟨1, 0, [word 3, word 0x8FFF]⟩ : Interpreter).memory_.length ∧
    GetTargetLocation ⟨1, 0, [word 3, word 0x8FFF]⟩ [false] (natToBits 0xFFF 12) = .ok 0 ∧
    ∃ r, DoADD ⟨1, 0, [word 3, word 0x8FFF]⟩ [false] (natToBits 0xFFF 12) = .ok r :=
  ⟨by decide, by rfl,
   (GetTargetLocation_in_bounds ⟨1, 0, [word 3, word 0x8FFF]⟩ [false] (natToBits 0xFFF 12)
     (by decide) (Or.inl rfl)).2.2.2.1⟩

/-! ## How `pc_` moves, and runs without branches -/

theorem DoADD_frame (it r : Interpreter) (addr target : BitString)
    (h : DoADD it addr target = .ok r) : r.pc_ = it.pc_ ∧ r.memory_ = it.memory_ := by
  unfold DoADD at h
  split at h
  · cases h
  · split at h
    · cases h
    · have hr := Except.ok.inj h
      subst hr
      exact ⟨rfl, rfl⟩

theorem DoAND_frame (it r : Interpreter) (addr target : BitString)
    (h : DoAND it addr target = .ok r) : r.pc_ = it.pc_ ∧ r.memory_ = it.memory_ := by
  unfold DoAND at h
  split at h
  · cases h
  · split at h
    · cases h
    · have hr := Except.ok.inj h
      subst hr
      exact ⟨rfl, rfl⟩

theorem DoSUB_frame (it r : Interpreter) (addr target : BitString)
    (h : DoSUB it addr target = .ok r) : r.pc_ = it.pc_ ∧ r.memory_ = it.memory_ := by
  unfold DoSUB at h
  split at h
  · cases h
  · split at h
    · cases h
    · have hr := Except.ok.inj h
      subst hr
      exact ⟨rfl, rfl⟩

theorem DoLD_frame (it r : Interpreter) (addr target : BitString)
    (h : DoLD it addr target = .ok r) : r.pc_ = it.pc_ ∧ r.memory_ = it.memory_ := by
  unfold DoLD at h
  split at h
  · cases h
  · split at h
    · cases h
    · have hr := Except.ok.inj h
      subst hr
      exact ⟨rfl, rfl⟩

theorem DoSTC_frame (it r : Interpreter) (addr target : BitString)
    (h : DoSTC it addr target = .ok r) :
    r.pc_ = it.pc_ ∧ r.memory_.length = it.memory_.length := by
  unfold DoSTC at h
  split at h
  · cases h
  · split_ifs at h
    have hr := Except.ok.inj h
    subst hr
    exact ⟨rfl, by simp⟩

theorem DoBAN_frame (it r : Interpreter) (addr target : BitString)
    (h : DoBAN it addr target = .ok r) :
    r.memory_ = it.memory_ ∧ (¬ it.accum_ < 0 → r.pc_ = it.pc_) := by
  unfold DoBAN at h
  split_ifs at h with hneg
  · split at h
    · cases h
    · have hr := Except.ok.inj h
      subst hr
      exact ⟨rfl, fun hn => absurd hneg hn⟩
  · have hr := Except.ok.inj h
    subst hr
    exact ⟨rfl, fun _ => rfl⟩

theorem DoBR_frame (it r : Interpreter) (addr target : BitString)
    (h : DoBR it addr target = .ok r) : r.memory_ = it.memory_ := by
  unfold DoBR at h
  split at h
  · cases h
  · have hr := Except.ok.inj h
    subst hr
    rfl

theorem DoRD_frame (cfg : Config) (m r : Machine) (h : DoRD cfg m = .ok r) :
    r.interp.pc_ = m.interp.pc_ ∧ r.interp.memory_ = m.interp.memory_ := by
  unfold DoRD at h
  split at h
  · split at h
    · cases h
    · have hr := Except.ok.inj h
      subst hr
      exact ⟨rfl, rfl⟩
  · cases h

theorem Execute_frame (cfg : Config) (m m1 : Machine) (w : OneMemoryWord)
    (h : Execute cfg m w = .ok m1) (hbr : isBR cfg w = false)
    (hban : isTakenBAN cfg m w = false) :
    m1.interp.memory_.length = m.interp.memory_.length ∧
    (isSTP cfg w = false → m1.interp.pc_ = m.interp.pc_) ∧
    (isSTP cfg w = true → m1.interp.pc_ = cfg.kPCForStop) := by
  simp only [isBR, decide_eq_false_iff_not] at hbr
  simp only [isTakenBAN, decide_eq_false_iff_not] at hban
  simp only [isSTP, decide_eq_false_iff_not, decide_eq_true_eq]
  unfold Execute at h
  dsimp only at h
  split_ifs at h with h1 h2 h3 h4 h5 h6 h7 h8 h9 h10 h11
  · have hr := Except.ok.inj h
    subst hr
    exact ⟨rfl, fun hn => absurd ⟨h2, h3⟩ hn, fun _ => rfl⟩
  · have hf := DoRD_frame cfg m m1 h
    exact ⟨by rw [hf.2], fun _ => hf.1, fun hs => absurd hs.2 h3⟩
  · have hr := Except.ok.inj h
    subst hr
    exact ⟨rfl, fun _ => rfl, fun hs => absurd hs.2 h3⟩
  · have hr := Except.ok.inj h
    subst hr
    exact ⟨rfl, fun _ => rfl, fun hs => absurd hs.2 h3⟩
  · obtain ⟨it, hit, he⟩ := onInterp_ok _ _ _ h
    have hf := DoBAN_frame _ _ _ _ hit
    have hnn : ¬ m.interp.accum_ < 0 := fun hneg => hban ⟨h6, hneg⟩
    rw [he]
    exact ⟨by rw [hf.1], fun _ => hf.2 hnn, fun hs => absurd hs.1 h2⟩
  · obtain ⟨it, hit, he⟩ := onInterp_ok _ _ _ h
    have hf := DoSUB_frame _ _ _ _ hit
    rw [he]
    exact ⟨by rw [hf.2], fun _ => hf.1, fun hs => absurd hs.1 h2⟩
  · obtain ⟨it, hit, he⟩ := onInterp_ok _ _ _ h
    have hf := DoSTC_frame _ _ _ _ hit
    rw [he]
    exact ⟨hf.2, fun _ => hf.1, fun hs => absurd hs.1 h2⟩
  · obtain ⟨it, hit, he⟩ := onInterp_ok _ _ _ h
    have hf := DoAND_frame _ _ _ _ hit
    rw [he]
    exact ⟨by rw [hf.2], fun _ => hf.1, fun hs => absurd hs.1 h2⟩
  · obtain ⟨it, hit, he⟩ := onInterp_ok _ _ _ h
    have hf := DoADD_frame _ _ _ _ hit
    rw [he]
    exact ⟨by rw [hf.2], fun _ => hf.1, fun hs => absurd hs.1 h2⟩
  · obtain ⟨it, hit, he⟩ := onInterp_ok _ _ _ h
    have hf := DoLD_frame _ _ _ _ hit
    rw [he]
    exact ⟨by rw [hf.2], fun _ => hf.1, fun hs => absurd hs.1 h2⟩
  · have hr := Except.ok.inj h
    subst hr
    exact ⟨rfl, fun _ => rfl, fun hs => absurd hs.1 h2⟩

theorem memoryAt_ok (memory : List OneMemoryWord) (i : Nat) (w : OneMemoryWord)
    (h : memoryAt memory i = .ok w) : memory[i]? = some w := by
  unfold memoryAt at h
  split at h
  · rename_i w1 hw1
    have hr := Except.ok.inj h
    rw [hw1, hr]
  · cases h

theorem InterpretStep_true_inv (cfg : Config) (m m1 : Machine)
    (h : InterpretStep cfg m = .ok (true, m1)) :
    m.interp.pc_ < m.interp.memory_.length ∧ ¬ m.interp.pc_ > cfg.kMaxMemory ∧
    ∃ w m2, m.interp.memory_[m.interp.pc_]? = some w ∧ Execute cfg m w = .ok m2 ∧
      m1 = { m2 with interp := { m2.interp with pc_ := m2.interp.pc_ + 1 } } := by
  unfold InterpretStep at h
  split_ifs at h with hpc hmax
  · refine ⟨hpc, hmax, ?_⟩
    cases hm : memoryAt m.interp.memory_ m.interp.pc_ with
    | error e =>
      rw [hm] at h
      cases h
    | ok w =>
      rw [hm] at h
      dsimp only at h
      cases hx : Execute cfg m w with
      | error e =>
        rw [hx] at h
        cases h
      | ok m2 =>
        rw [hx] at h
        dsimp only at h
        have hr := Except.ok.inj h
        exact ⟨w, m2, memoryAt_ok _ _ _ hm, hx, (congrArg Prod.snd hr).symm⟩
  · have hr := Except.ok.inj h
    have hb : false = true := congrArg Prod.fst hr
    cases hb

theorem InterpretTrace_no_fetch (cfg : Config) (m : Machine) (fuel : Nat)
    (h : ¬ (m.interp.pc_ < m.interp.memory_.length ∧ ¬ m.interp.pc_ > cfg.kMaxMemory)) :
    InterpretTrace cfg fuel m = [] ∧ InterpretLoop cfg (fuel + 1) m ≠ .ok none := by
  constructor
  · cases fuel with
    | zero => rfl
    | succ k => rw [InterpretTrace, if_neg h]
  · by_cases hpc : m.interp.pc_ < m.interp.memory_.length
    · have hmax : m.interp.pc_ > cfg.kMaxMemory := by
        by_contra hn
        exact h ⟨hpc, hn⟩
      simp [InterpretLoop, InterpretStep, hpc, hmax]
    · simp [InterpretLoop, InterpretStep, hpc]

theorem InterpretTrace_bound (cfg : Config) (fuel : Nat) :
    ∀ m : Machine,
      (m.interp.memory_.length ≤ cfg.kPCForStop + 1 ∨ cfg.kMaxMemory ≤ cfg.kPCForStop) →
      (∀ m1 ∈ InterpretTrace cfg fuel m, executesBranch cfg m1 = false) →
      (InterpretTrace cfg fuel m).length ≤ m.interp.memory_.length - m.interp.pc_ ∧
      (m.interp.memory_.length - m.interp.pc_ < fuel →
        InterpretLoop cfg fuel m ≠ .ok none) := by
  induction fuel with
  | zero =>
    intro m _ _
    exact ⟨by simp [InterpretTrace], fun h => absurd h (by omega)⟩
  | succ k ih =>
    intro m hstop hnb
    by_cases hc : m.interp.pc_ < m.interp.memory_.length ∧ ¬ m.interp.pc_ > cfg.kMaxMemory
    · have hhead : m ∈ InterpretTrace cfg (k + 1) m := by
        rw [InterpretTrace, if_pos hc]
        exact List.mem_cons_self _ _
      have hb := hnb m hhead
      cases hstep : InterpretStep cfg m with
      | error e =>
        have ht : InterpretTrace cfg (k + 1) m = [m] := by
          rw [InterpretTrace, if_pos hc, hstep]
        refine ⟨by rw [ht]; simp; omega, fun _ => ?_⟩
        simp [InterpretLoop, hstep]
      | ok p =>
        obtain ⟨b, m1⟩ := p
        cases b with
        | false =>
          have ht : InterpretTrace cfg (k + 1) m = [m] := by
            rw [InterpretTrace, if_pos hc, hstep]
          refine ⟨by rw [ht]; simp; omega, fun _ => ?_⟩
          simp [InterpretLoop, hstep]
        | true =>
          have ht : InterpretTrace cfg (k + 1) m = m :: InterpretTrace cfg k m1 := by
            rw [InterpretTrace, if_pos hc, hstep]
          have hloop : InterpretLoop cfg (k + 1) m = InterpretLoop cfg k m1 := by
            simp [InterpretLoop, hstep]
          obtain ⟨_, _, w, m2, hw, hx, hm1⟩ := InterpretStep_true_inv cfg m m1 hstep
          have hbw : isBR cfg w = false ∧ isTakenBAN cfg m w = false := by
            simpa [executesBranch, hw] using hb
          obtain ⟨hlen, hpcN, hpcS⟩ := Execute_frame cfg m m2 w hx hbw.1 hbw.2
          have hlen1 : m1.interp.memory_.length = m.interp.memory_.length := by
            rw [hm1]
            exact hlen
          have hpc1 : m1.interp.pc_ = m2.interp.pc_ + 1 := by
            rw [hm1]
          rw [ht, hloop]
          cases hS : isSTP cfg w with
          | false =>
            have hpc2 : m1.interp.pc_ = m.interp.pc_ + 1 := by
              rw [hpc1, hpcN hS]
            have hi := ih m1 (by rw [hlen1]; exact hstop)
              (fun m3 hm3 => hnb m3 (by rw [ht]; exact List.mem_cons_of_mem _ hm3))
            rw [hlen1, hpc2] at hi
            refine ⟨by simp only [List.length_cons]; omega, fun hf => hi.2 (by omega)⟩
          | true =>
            have hpc2 : m1.interp.pc_ = cfg.kPCForStop + 1 := by
              rw [hpc1, hpcS hS]
            have hno : ¬ (m1.interp.pc_ < m1.interp.memory_.length
                ∧ ¬ m1.interp.pc_ > cfg.kMaxMemory) := by
              rw [hlen1, hpc2]
              omega
            refine ⟨by rw [(InterpretTrace_no_fetch cfg m1 k hno).1]; simp; omega,
              fun hf => ?_⟩
            cases k with
            | zero => omega
            | succ j => exact (InterpretTrace_no_fetch cfg m1 j hno).2
    · have hn := InterpretTrace_no_fetch cfg m k hc
      have ht := (InterpretTrace_no_fetch cfg m (k + 1) hc).1
      exact ⟨by rw [ht]; simp, fun _ => hn.2⟩

/-- C24: a pass of the loop that executes a word which is neither a `BR`, nor
a taken `BAN`, nor an `STP` leaves `pc_` one higher and the memory as long as
it was. Hence, when the stop value is not an address that the loop would
fetch from (the memory has at most `kPCForStop + 1` words, or `kPCForStop` is
at least `kMaxMemory`), a run from any state in which no `BR` and no taken
`BAN` is executed performs at most `n - pc_` instruction executions, `n`
being the number of words, so at most `n`; and with more than `n - pc_`
passes allowed the loop has ended, normally or with a fatal error. The bound
holds whatever `STC` writes during the run. -/
theorem no_branch_run_bounded (cfg : Config) (m : Machine) (fuel : Nat)
    (hstop : m.interp.memory_.length ≤ cfg.kPCForStop + 1
      ∨ cfg.kMaxMemory ≤ cfg.kPCForStop)
    (hnb : ∀ m1 ∈ InterpretTrace cfg fuel m, executesBranch cfg m1 = false) :
    (∀ (m0 m1 : Machine) (w : OneMemoryWord),
      m0.interp.memory_[m0.interp.pc_]? = some w →
      InterpretStep cfg m0 = .ok (true, m1) →
      isBR cfg w = false → isTakenBAN cfg m0 w = false → isSTP cfg w = false →
      m1.interp.pc_ = m0.interp.pc_ + 1 ∧
      m1.interp.memory_.length = m0.interp.memory_.length) ∧
    (InterpretTrace cfg fuel m).length ≤ m.interp.memory_.length - m.interp.pc_ ∧
    (InterpretTrace cfg fuel m).length ≤ m.interp.memory_.length ∧
    (m.interp.memory_.length - m.interp.pc_ < fuel →
      (∃ m1, InterpretLoop cfg fuel m = .ok (some m1))
        ∨ (∃ e, InterpretLoop cfg fuel m = .error e)) := by
  have hb := InterpretTrace_bound cfg fuel m hstop hnb
  refine ⟨?_, hb.1, le_trans hb.1 (Nat.sub_le _ _), ?_⟩
  · intro m0 m1 w hw hstep hbr hban hstp
    obtain ⟨_, _, w1, m2, hw1, hx, hm1⟩ := InterpretStep_true_inv cfg m0 m1 hstep
    have hww : w1 = w := by
      rw [hw] at hw1
      exact (Option.some.inj hw1).symm
    subst hww
    obtain ⟨hlen, hpcN, _⟩ := Execute_frame cfg m0 m2 w1 hx hbr hban
    rw [hm1]
    exact ⟨by simp only [hpcN hstp], hlen⟩
  · intro hf
    have hne := hb.2 hf
    cases hr : InterpretLoop cfg fuel m with
    | error e => exact Or.inr ⟨e, rfl⟩
    | ok o =>
      cases o with
      | none => exact absurd hr hne
      | some m1 => exact Or.inl ⟨m1, rfl⟩

theorem no_branch_run_bounded_witness :
    (pullet16.kMaxMemory ≤ pullet16.kPCForStop) ∧
    InterpretTrace pullet16 4 ⟨⟨0, 9, [word 0x4000, word 0xE003, word 0xE002]⟩, [], []⟩
      = [⟨⟨0, 9, [word 0x4000, word 0xE003, word 0xE002]⟩, [], []⟩,
         ⟨⟨1, 0, [word 9, word 0xE003, word 0xE002]⟩, [], []⟩,
         ⟨⟨2, 0, [word 9, word 0xE003, word 0xE002]⟩, [],
           [⟨0, (word 0).GetBitPattern⟩]⟩] ∧
    (InterpretTrace pullet16 4
      ⟨⟨0, 9, [word 0x4000, word 0xE003, word 0xE002]⟩, [], []⟩).length ≤ 3 ∧
    ((∃ m1, InterpretLoop pullet16 4
        ⟨⟨0, 9, [word 0x4000, word 0xE003, word 0xE002]⟩, [], []⟩ = .ok (some m1))
      ∨ (∃ e, InterpretLoop pullet16 4
        ⟨⟨0, 9, [word 0x4000, word 0xE003, word 0xE002]⟩, [], []⟩ = .error e)) := by
  have ht : InterpretTrace pullet16 4
      ⟨⟨0, 9, [word 0x4000, word 0xE003, word 0xE002]⟩, [], []⟩
      = [⟨⟨0, 9, [word 0x4000, word 0xE003, word 0xE002]⟩, [], []⟩,
         ⟨⟨1, 0, [word 9, word 0xE003, word 0xE002]⟩, [], []⟩,
         ⟨⟨2, 0, [word 9, word 0xE003, word 0xE002]⟩, [],
           [⟨0, (word 0).GetBitPattern⟩]⟩] := by rfl
  have hnb : ∀ m1 ∈ InterpretTrace pullet16 4
      ⟨⟨0, 9, [word 0x4000, word 0xE003, word 0xE002]⟩, [], []⟩,
      executesBranch pullet16 m1 = false := by
    intro m1 hm1
    rw [ht] at hm1
    simp only [List.mem_cons, List.mem_singleton, List.not_mem_nil, or_false] at hm1
    rcases hm1 with h | h | h <;> subst h <;> rfl
  have h := no_branch_run_bounded pullet16
    ⟨⟨0, 9, [word 0x4000, word 0xE003, word 0xE002]⟩, [], []⟩ 4
    (Or.inr (by decide)) hnb
  exact ⟨by decide, ht, h.2.2.1, h.2.2.2 (by decide)⟩

/-! ## Runs that leave the 32-bit range -/

theorem loop_reach (prog : List OneMemoryWord) (d : Int) (hd : 0 < d)
    (hA : ∀ a : Int, a < 0 →
      InterpretStep pullet16 ⟨⟨1, a, prog⟩, [], []⟩
        = .ok (true, ⟨⟨2, wrapInt32 (a - d), prog⟩, [], []⟩))
    (hB : ∀ a : Int, a < 0 →
      InterpretStep pullet16 ⟨⟨2, a, prog⟩, [], []⟩
        = .ok (true, ⟨⟨1, a, prog⟩, [], []⟩))
    (h0 : Reachable pullet16 ⟨⟨1, -d, prog⟩, [], []⟩) :
    ∀ k : Nat, -2147483648 ≤ -(d * ((k : Int) + 1)) →
      Reachable pullet16 ⟨⟨1, -(d * ((k : Int) + 1)), prog⟩, [], []⟩ := by
  intro k
  induction k with
  | zero =>
    intro _
    have he : -(d * (((0 : Nat) : Int) + 1)) = -d := by simp
    rw [he]
    exact h0
  | succ k ih =>
    intro hk
    have hx : 0 < d * ((k : Int) + 1) := mul_pos hd (by positivity)
    have he : d * (((k + 1 : Nat) : Int) + 1) = d * ((k : Int) + 1) + d := by
      push_cast
      ring
    rw [he] at hk ⊢
    generalize d * ((k : Int) + 1) = x at hx hk ih
    have h1 := ih (by omega)
    have hw : wrapInt32 (-x - d) = -(x + d) := by
      rw [wrapInt32_of_range _ (by omega) (by omega)]
      ring
    have h2 := Reachable.step _ _ true h1 (hA (-x) (by omega))
    rw [hw] at h2
    exact Reachable.step _ _ true h2 (hB (-(x + d)) (by omega))

theorem BAN_loop_back (prog : List OneMemoryWord) (a : Int) (ha : a < 0)
    (hx : Execute pullet16 ⟨⟨2, a, prog⟩, [], []⟩ (word 0)
      = onInterp ⟨⟨2, a, prog⟩, [], []⟩ (DoBAN ⟨2, a, prog⟩ [false] (natToBits 0 12)))
    (hlen : 2 < prog.length) (hw : prog[2]? = some (word 0)) :
    InterpretStep pullet16 ⟨⟨2, a, prog⟩, [], []⟩
      = .ok (true, ⟨⟨1, a, prog⟩, [], []⟩) := by
  have hban : DoBAN ⟨2, a, prog⟩ [false] (natToBits 0 12) = .ok ⟨0, a, prog⟩ := by
    have ht : BitStringToDec (natToBits 0 12) = 0 := by rfl
    simp [DoBAN, ha, GetTargetLocation_direct_eq, ht]
  rw [hban] at hx
  have hmax : (2 : Nat) ≤ pullet16.kMaxMemory := by decide
  exact InterpretStep_of_Execute_ok pullet16 ⟨⟨2, a, prog⟩, [], []⟩ _ (word 0) hlen
    hmax hw hx

theorem ADD_loop_reaches_edge :
    Reachable pullet16
      ⟨⟨1, -2147483646, [word 0x8001, word 0x8000, word 0]⟩, [], []⟩ := by
  have h0 : Reachable pullet16
      ⟨⟨1, -32767, [word 0x8001, word 0x8000, word 0]⟩, [], []⟩ :=
    Reachable.step ⟨⟨0, 0, [word 0x8001, word 0x8000, word 0]⟩, [], []⟩ _ true
      (Reachable.init _ _ _) (by rfl)
  have hA : ∀ a : Int, a < 0 →
      InterpretStep pullet16 ⟨⟨1, a, [word 0x8001, word 0x8000, word 0]⟩, [], []⟩
        = .ok (true,
            ⟨⟨2, wrapInt32 (a - 32767), [word 0x8001, word 0x8000, word 0]⟩, [], []⟩) := by
    intro a ha
    have hs : InterpretStep pullet16
        ⟨⟨1, a, [word 0x8001, word 0x8000, word 0]⟩, [], []⟩
        = .ok (true,
            ⟨⟨2, wrapInt32 (TwosComplementInteger a + TwosComplementInteger 32769),
              [word 0x8001, word 0x8000, word 0]⟩, [], []⟩) := by rfl
    have ht : TwosComplementInteger a + TwosComplementInteger 32769 = a - 32767 := by
      unfold TwosComplementInteger
      split <;> omega
    rw [hs, ht]
  have hB : ∀ a : Int, a < 0 →
      InterpretStep pullet16 ⟨⟨2, a, [word 0x8001, word 0x8000, word 0]⟩, [], []⟩
        = .ok (true, ⟨⟨1, a, [word 0x8001, word 0x8000, word 0]⟩, [], []⟩) :=
    fun a ha => BAN_loop_back _ a ha (by rfl) (by decide) (by rfl)
  have h := loop_reach [word 0x8001, word 0x8000, word 0] 32767 (by decide) hA hB h0
    65537 (by norm_num)
  have he : -((32767 : Int) * (((65537 : Nat) : Int) + 1)) = -2147483646 := by norm_num
  rw [he] at h
  exact h

theorem SUB_loop_reaches_edge :
    Reachable pullet16
      ⟨⟨1, -2147483645, [word 0x2005, word 0x2000, word 0]⟩, [], []⟩ := by
  have h0 : Reachable pullet16
      ⟨⟨1, -5, [word 0x2005, word 0x2000, word 0]⟩, [], []⟩ :=
    Reachable.step ⟨⟨0, 0, [word 0x2005, word 0x2000, word 0]⟩, [], []⟩ _ true
      (Reachable.init _ _ _) (by rfl)
  have hA : ∀ a : Int, a < 0 →
      InterpretStep pullet16 ⟨⟨1, a, [word 0x2005, word 0x2000, word 0]⟩, [], []⟩
        = .ok (true,
            ⟨⟨2, wrapInt32 (a - 5), [word 0x2005, word 0x2000, word 0]⟩, [], []⟩) :=
    fun a _ => by rfl
  have hB : ∀ a : Int, a < 0 →
      InterpretStep pullet16 ⟨⟨2, a, [word 0x2005, word 0x2000, word 0]⟩, [], []⟩
        = .ok (true, ⟨⟨1, a, [word 0x2005, word 0x2000, word 0]⟩, [], []⟩) :=
    fun a ha => BAN_loop_back _ a ha (by rfl) (by decide) (by rfl)
  have h := loop_reach [word 0x2005, word 0x2000, word 0] 5 (by decide) hA hB h0
    429496728 (by norm_num)
  have he : -((5 : Int) * (((429496728 : Nat) : Int) + 1)) = -2147483645 := by norm_num
  rw [he] at h
  exact h

/-- C9 (as stated, refuted): three runs of the loop from `pc_ = 0` and
`accum_ = 0` reach an accumulator outside `0..65535`: `-5` after one `SUB`,
`-1` after one `RD` of the token `-0001`, and `2147450883` when the sum of an
`ADD` in a loop of `ADD` and `BAN` leaves the 32-bit range. -/
theorem accum_leaves_pattern_range :
    (Reachable pullet16 ⟨⟨1, -5, [word 0x2005]⟩, [], []⟩ ∧
      ¬ (0 ≤ (⟨⟨1, -5, [word 0x2005]⟩, [], []⟩ : Machine).interp.accum_ ∧
         (⟨⟨1, -5, [word 0x2005]⟩, [], []⟩ : Machine).interp.accum_ ≤ 65535)) ∧
    (Reachable pullet16 ⟨⟨1, -1, [word 0xE001]⟩, [], []⟩ ∧
      ¬ (0 ≤ (⟨⟨1, -1, [word 0xE001]⟩, [], []⟩ : Machine).interp.accum_ ∧
         (⟨⟨1, -1, [word 0xE001]⟩, [], []⟩ : Machine).interp.accum_ ≤ 65535)) ∧
    (Reachable pullet16
        ⟨⟨2, 2147450883, [word 0x8001, word 0x8000, word 0]⟩, [], []⟩ ∧
      ¬ (0 ≤ (⟨⟨2, 2147450883, [word 0x8001, word 0x8000, word 0]⟩, [], []⟩
            : Machine).interp.accum_ ∧
         (⟨⟨2, 2147450883, [word 0x8001, word 0x8000, word 0]⟩, [], []⟩
            : Machine).interp.accum_ ≤ 65535)) := by
  refine ⟨⟨?_, by decide⟩, ⟨?_, by decide⟩, ⟨?_, by decide⟩⟩
  · have h0 : Reachable pullet16 ⟨⟨0, 0, [word 0x2005]⟩, [], []⟩ := Reachable.init _ _ _
    exact Reachable.step _ ⟨⟨1, -5, [word 0x2005]⟩, [], []⟩ true h0 (by rfl)
  · have h0 : Reachable pullet16 ⟨⟨0, 0, [word 0xE001]⟩, ["-0001"], []⟩ :=
      Reachable.init _ _ _
    exact Reachable.step _ ⟨⟨1, -1, [word 0xE001]⟩, [], []⟩ true h0 (by rfl)
  · exact Reachable.step _
      ⟨⟨2, 2147450883, [word 0x8001, word 0x8000, word 0]⟩, [], []⟩ true
      ADD_loop_reaches_edge (by rfl)

/-- C9 (amended): in every state that the loop reaches from `pc_ = 0` and
`accum_ = 0`, whatever the program and the data, the stored accumulator is a
signed 32-bit integer, from `-2147483648` to `2147483647`; it need not lie
in `0..65535`. -/
theorem Reachable_accum_int32 (cfg : Config) (m : Machine) (h : Reachable cfg m) :
    -2147483648 ≤ m.interp.accum_ ∧ m.interp.accum_ ≤ 2147483647 := by
  induction h with
  | init memory data out => exact ⟨by norm_num, by norm_num⟩
  | step m m1 b _ hstep ih => exact InterpretStep_accum_range cfg m m1 b hstep ih

theorem Reachable_accum_int32_witness :
    Reachable pullet16 ⟨⟨1, 30000, [word 0xE001]⟩, [], []⟩ ∧
    (-2147483648 ≤ (⟨⟨1, 30000, [word 0xE001]⟩, [], []⟩ : Machine).interp.accum_ ∧
      (⟨⟨1, 30000, [word 0xE001]⟩, [], []⟩ : Machine).interp.accum_ ≤ 2147483647) :=
  have h : Reachable pullet16 ⟨⟨1, 30000, [word 0xE001]⟩, [], []⟩ :=
    Reachable.step ⟨⟨0, 0, [word 0xE001]⟩, ["+7530"], []⟩ _ true (Reachable.init _ _ _) (by rfl)
  ⟨h, Reachable_accum_int32 pullet16 _ h⟩

/-- C10 (as stated, refuted): a loop of `ADD` and `BAN` reaches `pc_ = 1`
with the accumulator at `-2147483646`; the `ADD` there resolves to location
`0`, whose word has the pattern `32769`; the exact sum of the two converted
values is `-2147516413`, but `DoADD` leaves `2147450883` in the accumulator,
the sum wrapped around in 32 bits. -/
theorem DoADD_wraps_at_edge :
    Reachable pullet16
      ⟨⟨1, -2147483646, [word 0x8001, word 0x8000, word 0]⟩, [], []⟩ ∧
    GetTargetLocation ⟨1, -2147483646, [word 0x8001, word 0x8000, word 0]⟩
      [false] (natToBits 0 12) = .ok 0 ∧
    (⟨1, -2147483646, [word 0x8001, word 0x8000, word 0]⟩ : Interpreter).memory_[0]?
      = some (word 0x8001) ∧
    TwosComplementInteger (-2147483646)
      + TwosComplementInteger (BitStringToDec (word 0x8001).GetBitPattern) = -2147516413 ∧
    DoADD ⟨1, -2147483646, [word 0x8001, word 0x8000, word 0]⟩ [false] (natToBits 0 12)
      = .ok ⟨1, 2147450883, [word 0x8001, word 0x8000, word 0]⟩ ∧
    DoADD ⟨1, -2147483646, [word 0x8001, word 0x8000, word 0]⟩ [false] (natToBits 0 12)
      ≠ .ok ⟨1, TwosComplementInteger (-2147483646)
          + TwosComplementInteger (BitStringToDec (word 0x8001).GetBitPattern),
          [word 0x8001, word 0x8000, word 0]⟩ := by
  have hsum : TwosComplementInteger (-2147483646)
      + TwosComplementInteger (BitStringToDec (word 0x8001).GetBitPattern)
      = -2147516413 := by rfl
  have hadd : DoADD ⟨1, -2147483646, [word 0x8001, word 0x8000, word 0]⟩ [false]
      (natToBits 0 12) = .ok ⟨1, 2147450883, [word 0x8001, word 0x8000, word 0]⟩ := by rfl
  refine ⟨ADD_loop_reaches_edge, by rfl, by rfl, hsum, hadd, ?_⟩
  rw [hadd, hsum]
  intro h
  have h1 := congrArg Interpreter.accum_ (Except.ok.inj h)
  exact absurd h1 (by decide)

/-- C11 (as stated, refuted): a loop of `SUB` and `BAN` reaches `pc_ = 1`
with the accumulator at `-2147483645`; the `SUB` there resolves to location
`0`, whose word has the address field `5`; the exact difference is
`-2147483650`, but `DoSUB` leaves `2147483646` in the accumulator, the
difference wrapped around in 32 bits; likewise `-2147483647` minus `5` leaves
`2147483644`. -/
theorem DoSUB_wraps_at_edge :
    Reachable pullet16
      ⟨⟨1, -2147483645, [word 0x2005, word 0x2000, word 0]⟩, [], []⟩ ∧
    GetTargetLocation ⟨1, -2147483645, [word 0x2005, word 0x2000, word 0]⟩
      [false] (natToBits 0 12) = .ok 0 ∧
    (⟨1, -2147483645, [word 0x2005, word 0x2000, word 0]⟩ : Interpreter).memory_[0]?
      = some (word 0x2005) ∧
    BitStringToDec (word 0x2005).GetAddressBits = 5 ∧
    DoSUB ⟨1, -2147483645, [word 0x2005, word 0x2000, word 0]⟩ [false] (natToBits 0 12)
      = .ok ⟨1, 2147483646, [word 0x2005, word 0x2000, word 0]⟩ ∧
    DoSUB ⟨1, -2147483645, [word 0x2005, word 0x2000, word 0]⟩ [false] (natToBits 0 12)
      ≠ .ok ⟨1, -2147483645 - (BitStringToDec (word 0x2005).GetAddressBits : Nat),
          [word 0x2005, word 0x2000, word 0]⟩ ∧
    DoSUB ⟨1, -2147483647, [word 0x2005, word 0x2000, word 0]⟩ [false] (natToBits 0 12)
      = .ok ⟨1, 2147483644, [word 0x2005, word 0x2000, word 0]⟩ := by
  have hsub : DoSUB ⟨1, -2147483645, [word 0x2005, word 0x2000, word 0]⟩ [false]
      (natToBits 0 12) = .ok ⟨1, 2147483646, [word 0x2005, word 0x2000, word 0]⟩ := by rfl
  refine ⟨SUB_loop_reaches_edge, by rfl, by rfl, by rfl, hsub, ?_, by rfl⟩
  rw [hsub]
  intro h
  have h1 := congrArg Interpreter.accum_ (Except.ok.inj h)
  have h5 : BitStringToDec (word 0x2005).GetAddressBits = 5 := by rfl
  rw [h5] at h1
  exact absurd h1 (by decide)

/-! ## The only bounds test on a resolved location -/

theorem GetTargetLocation_le (it : Interpreter) (addr target : BitString) (L : Nat)
    (hL : GetTargetLocation it addr target = .ok L) (hlen : target.length ≤ 12) :
    L ≤ 4095 := by
  have ht : BitStringToDec target < 4096 := by
    have h1 := BitStringToDec_lt target
    have h2 : 2 ^ target.length ≤ 2 ^ 12 := Nat.pow_le_pow_right (by norm_num) hlen
    omega
  unfold GetTargetLocation at hL
  dsimp only at hL
  split_ifs at hL
  · have h := Except.ok.inj hL
    omega
  · split at hL
    · cases hL
    · rename_i w _
      have h := Except.ok.inj hL
      have hw := BitStringToDec_GetAddressBits_lt w
      omega
  · have h := Except.ok.inj hL
    omega

/-- C3 (amended): for `ADD`, `AND`, `SUB`, `LD` and `STC` the only bounds test
on the resolved location `L` is the one that `memory_.at` makes. When `L` is
an index of the loaded memory, location `0` included, the instruction ends
normally and reads or writes the word at `L`; when `L` is not an index of the
loaded memory, the instruction ends in the fatal `std::out_of_range` error
and hands on no state. A location resolved from a 12-bit address field never
exceeds `4095`. -/
theorem access_checked_by_at_only (it : Interpreter) (addr target : BitString) (L : Nat)
    (hL : GetTargetLocation it addr target = .ok L) :
    (∀ w : OneMemoryWord, it.memory_[L]? = some w →
      DoADD it addr target =
        .ok { pc_ := it.pc_,
              accum_ := wrapInt32 (TwosComplementInteger it.accum_
                + TwosComplementInteger (BitStringToDec w.GetBitPattern)),
              memory_ := it.memory_ } ∧
      DoAND it addr target =
        .ok { pc_ := it.pc_,
              accum_ := Int.land it.accum_ (BitStringToDec w.GetBitPattern : Nat),
              memory_ := it.memory_ } ∧
      DoSUB it addr target =
        .ok { pc_ := it.pc_,
              accum_ := wrapInt32 (it.accum_ - (BitStringToDec w.GetAddressBits : Nat)),
              memory_ := it.memory_ } ∧
      DoLD it addr target =
        .ok { pc_ := it.pc_,
              accum_ := (BitStringToDec w.GetAddressBits : Nat),
              memory_ := it.memory_ } ∧
      DoSTC it addr target =
        .ok { pc_ := it.pc_, accum_ := 0,
              memory_ := it.memory_.set L (OneMemoryWord.ofValue it.accum_) }) ∧
    (it.memory_.length ≤ L →
      DoADD it addr target = .error .out_of_range ∧
      DoAND it addr target = .error .out_of_range ∧
      DoSUB it addr target = .error .out_of_range ∧
      DoLD it addr target = .error .out_of_range ∧
      DoSTC it addr target = .error .out_of_range) ∧
    (target.length ≤ 12 → L ≤ 4095) := by
  refine ⟨?_, ?_, GetTargetLocation_le it addr target L hL⟩
  · intro w hw
    have hlt : L < it.memory_.length := by
      by_contra hn
      rw [List.getElem?_eq_none (by omega)] at hw
      cases hw
    refine ⟨?_, ?_, ?_, ?_, ?_⟩
    · simp [DoADD, hL, memoryAt, hw]
    · simp [DoAND, hL, memoryAt, hw]
    · simp [DoSUB, hL, memoryAt, hw]
    · simp [DoLD, hL, memoryAt, hw]
    · simp [DoSTC, hL, hlt]
  · intro hge
    have hn : it.memory_[L]? = none := List.getElem?_eq_none hge
    have hnlt : ¬ L < it.memory_.length := by omega
    refine ⟨?_, ?_, ?_, ?_, ?_⟩
    · simp [DoADD, hL, memoryAt, hn]
    · simp [DoAND, hL, memoryAt, hn]
    · simp [DoSUB, hL, memoryAt, hn]
    · simp [DoLD, hL, memoryAt, hn]
    · simp [DoSTC, hL, hnlt]

theorem access_checked_by_at_only_witness :
    GetTargetLocation ⟨1, 0, [word 5, word 0x8000]⟩ [false] (natToBits 0 12) = .ok 0 ∧
    (⟨1, 0, [word 5, word 0x8000]⟩ : Interpreter).memory_[0]? = some (word 5) ∧
    DoADD ⟨1, 0, [word 5, word 0x8000]⟩ [false] (natToBits 0 12)
      = .ok ⟨1, 5, [word 5, word 0x8000]⟩ ∧
    GetTargetLocation ⟨1, 0, [word 9, word 0x9000]⟩ [true] (natToBits 0 12) = .ok 9 ∧
    (⟨1, 0, [word 9, word 0x9000]⟩ : Interpreter).memory_.length ≤ 9 ∧
    DoADD ⟨1, 0, [word 9, word 0x9000]⟩ [true] (natToBits 0 12) = .error .out_of_range ∧
    (natToBits 0 12).length ≤ 12 ∧
    (9 : Nat) ≤ 4095 :=
  ⟨by rfl, by rfl,
   ((access_checked_by_at_only ⟨1, 0, [word 5, word 0x8000]⟩ [false] (natToBits 0 12) 0
     (by rfl)).1 (word 5) (by rfl)).1,
   by rfl, by decide,
   ((access_checked_by_at_only ⟨1, 0, [word 9, word 0x9000]⟩ [true] (natToBits 0 12) 9
     (by rfl)).2.1 (by decide)).1,
   by decide,
   (access_checked_by_at_only ⟨1, 0, [word 9, word 0x9000]⟩ [true] (natToBits 0 12) 9
     (by rfl)).2.2 (by decide)⟩

end Pullet16
